import Mathlib

/-!
Verification of the candlestick-aggregation / technical-indicator core of the
InvestFlow dashboard, as a shallow embedding in Lean.

Numbers: JS floating-point values are modelled as rationals (ℚ); epoch-millisecond
timestamps as integers (ℤ).  The JS value `Number.POSITIVE_INFINITY` appears in the
source only transiently (`rs = avgLoss === 0 ? Infinity : ...` followed by
`100 - 100/(1+rs)`, which evaluates to `100`); the embedding folds that branch to
its numeric result `100` directly, so no infinite value is needed.
-/

/-! ## RSI engine (src/lib/indicators/rsi module, bundled into api-config.ts) -/

/-- OHLCPoint from the RSI module: `{ open; high; low; close; timestamp? }`.
TypeScript typing is structural: the arrays reaching `getOrComputeRSI` (and so
`hashOHLC`) are built from richer records that also carry a `volume`; the extra
field is included here (never read by the RSI engine, matching the interface). -/
structure OHLCPoint where
  open_ : ℚ
  high : ℚ
  low : ℚ
  close : ℚ
  timestamp : Option ℤ := none
  volume : ℚ := 0
deriving DecidableEq

inductive RsiPriceSource
  | close
  | hlc3
  | hl2
  | ohlc4
deriving DecidableEq

inductive RsiSmoothing
  | wilder
  | ema
  | sma
deriving DecidableEq

/-- RSIOptions with the source defaults.  `precision` is a JS number; the code
uses `Math.max(0, Math.floor(precision))`, modelled on ℤ. -/
structure RSIOptions where
  period : Nat := 14
  source : RsiPriceSource := RsiPriceSource.close
  smoothing : RsiSmoothing := RsiSmoothing.wilder
  includeIncompleteBar : Bool := false
  precision : Option ℤ := none
  clampEdges : Bool := false

inductive CrossType
  | bullish
  | bearish
deriving DecidableEq

/-- CrossoverPoint `{ time; type }`; `time` is an index into the RSI array. -/
structure CrossoverPoint where
  time : Nat
  type : CrossType
deriving DecidableEq

structure RSIData where
  rsi : List ℚ
  signal : List ℚ
  crossovers : List CrossoverPoint
deriving DecidableEq

/-- mapSource from the RSI module. -/
def mapSource (ohlc : List OHLCPoint) (source : RsiPriceSource) : List ℚ :=
  match source with
  | RsiPriceSource.hlc3 => ohlc.map (fun p => (p.high + p.low + p.close) / 3)
  | RsiPriceSource.hl2 => ohlc.map (fun p => (p.high + p.low) / 2)
  | RsiPriceSource.ohlc4 => ohlc.map (fun p => (p.open_ + p.high + p.low + p.close) / 4)
  | RsiPriceSource.close => ohlc.map (fun p => p.close)

/-- Per-bar change list: `closes[i] - closes[i-1]` for `i = 1 .. closes.length-1`. -/
def priceChanges (closes : List ℚ) : List ℚ :=
  List.zipWith (fun a b => b - a) closes closes.tail

/-- The first RSI value pushed by `calculateRSIWithOptions`: the code guards
`clampEdges && avgLoss === 0` with `100`, and otherwise computes
`100 - 100/(1+rs)` where `rs` is `Infinity` when `avgLoss === 0` (yielding 100). -/
def rsiPoint (clampEdges : Bool) (avgGain avgLoss : ℚ) : ℚ :=
  if clampEdges ∧ avgLoss = 0 then 100
  else if avgLoss = 0 then 100
  else 100 - 100 / (1 + avgGain / avgLoss)

/-- Subsequent RSI values: same as `rsiPoint` plus the `clampEdges && avgGain === 0`
branch yielding `0`. -/
def rsiPointNext (clampEdges : Bool) (avgGain avgLoss : ℚ) : ℚ :=
  if clampEdges ∧ avgLoss = 0 then 100
  else if clampEdges ∧ avgGain = 0 then 0
  else if avgLoss = 0 then 100
  else 100 - 100 / (1 + avgGain / avgLoss)

/-- Common shape of the three smoothing loops in `calculateRSIWithOptions`:
each iteration folds one element of the remaining gain/loss stream into the
running pair of accumulators and pushes `rsiPointNext` of the (post-processed)
accumulators.  `wilder`/`ema` consume `(gain, loss)` pairs with `post = id`;
`sma` consumes `((newGain, oldGain), (newLoss, oldLoss))` window pairs with
`post = (· / period)`. -/
def rsiLoop {ι : Type} (clampEdges : Bool) (stepA stepB : ℚ → ι → ℚ) (post : ℚ → ℚ) :
    ℚ → ℚ → List ι → List ℚ
  | _, _, [] => []
  | a, b, x :: rest =>
    rsiPointNext clampEdges (post (stepA a x)) (post (stepB b x)) ::
      rsiLoop clampEdges stepA stepB post (stepA a x) (stepB b x) rest

/-- Rounding used for the `precision` option: JS `Number(v.toFixed(p))` for a
non-negative finite `v` rounds to `p` decimal places, ties away from zero. -/
def round10 (p : Nat) (v : ℚ) : ℚ :=
  ((Int.floor (v * 10 ^ p + 1 / 2) : ℤ) : ℚ) / 10 ^ p

/-- calculateRSIWithOptions from the RSI module. -/
def calculateRSIWithOptions (ohlc : List OHLCPoint) (opts : RSIOptions) : List ℚ :=
  let period := opts.period
  if ohlc.length < period + 1 then [] else
  let closes := mapSource ohlc opts.source
  if closes.length < period + 1 then [] else
  let chs := priceChanges closes
  let gains := chs.map (fun c => if 0 < c then c else 0)
  let losses := chs.map (fun c => if c < 0 then |c| else 0)
  let clamp := opts.clampEdges
  let avgGain := (gains.take period).sum / period
  let avgLoss := (losses.take period).sum / period
  let body :=
    match opts.smoothing with
    | RsiSmoothing.sma =>
      rsiPoint clamp avgGain avgLoss ::
        rsiLoop clamp (fun s x => s + x.1.1 - x.1.2) (fun s x => s + x.2.1 - x.2.2)
          (fun s => s / period)
          (gains.take period).sum (losses.take period).sum
          (((gains.drop period).zip gains).zip ((losses.drop period).zip losses))
    | RsiSmoothing.ema =>
      let alpha : ℚ := 2 / ((period : ℚ) + 1)
      rsiPoint clamp avgGain avgLoss ::
        rsiLoop clamp (fun a x => alpha * x.1 + (1 - alpha) * a)
          (fun b x => alpha * x.2 + (1 - alpha) * b) id
          avgGain avgLoss ((gains.drop period).zip (losses.drop period))
    | RsiSmoothing.wilder =>
      rsiPoint clamp avgGain avgLoss ::
        rsiLoop clamp (fun a x => (a * ((period : ℚ) - 1) + x.1) / period)
          (fun b x => (b * ((period : ℚ) - 1) + x.2) / period) id
          avgGain avgLoss ((gains.drop period).zip (losses.drop period))
  match opts.precision with
  | some prec => body.map (round10 (max 0 prec).toNat)
  | none => body

/-- The RSI point of the plain `calculateRSI`: there `rs` is `100` (not infinity)
when `avgLoss === 0`. -/
def rsiBasic (avgGain avgLoss : ℚ) : ℚ :=
  let rs := if avgLoss = 0 then 100 else avgGain / avgLoss
  100 - 100 / (1 + rs)

/-- Wilder-smoothing loop of the plain `calculateRSI`. -/
def rsiBasicLoop (period : Nat) : ℚ → ℚ → List (ℚ × ℚ) → List ℚ
  | _, _, [] => []
  | a, b, x :: rest =>
    let a' := (a * ((period : ℚ) - 1) + x.1) / period
    let b' := (b * ((period : ℚ) - 1) + x.2) / period
    rsiBasic a' b' :: rsiBasicLoop period a' b' rest

/-- calculateRSI (the plain Wilder variant over closes). -/
def calculateRSI (closes : List ℚ) (period : Nat) : List ℚ :=
  if closes.length < period + 1 then [] else
  let chs := priceChanges closes
  let gains := chs.map (fun c => if 0 < c then c else 0)
  let losses := chs.map (fun c => if c < 0 then |c| else 0)
  let avgGain := (gains.take period).sum / period
  let avgLoss := (losses.take period).sum / period
  rsiBasic avgGain avgLoss ::
    rsiBasicLoop period avgGain avgLoss ((gains.drop period).zip (losses.drop period))

/-- calculateSignal: simple moving average of the RSI sequence over `period`. -/
def calculateSignal (rsi : List ℚ) (period : Nat) : List ℚ :=
  if rsi.length < period then [] else
  (List.range' (period - 1) (rsi.length - (period - 1))).map
    (fun i => ((List.range period).map (fun j => rsi.getD (i - j) 0)).sum / period)

/-- detectCrossovers: walks the overlapping tail region of the two arrays
(`rsi` index `rsi.length - m + i` is aligned with `signal` index `i`, where
`m = min(rsi.length, signal.length)`), pushing bullish then bearish events. -/
def detectCrossovers (rsi signal : List ℚ) : List CrossoverPoint :=
  if rsi.length = 0 ∨ signal.length = 0 then [] else
  let m := min rsi.length signal.length
  (List.range' 1 (m - 1)).flatMap (fun i =>
    let prevRsi := rsi.getD (rsi.length - m + i - 1) 0
    let prevSignal := signal.getD (i - 1) 0
    let currentRsi := rsi.getD (rsi.length - m + i) 0
    let currentSignal := signal.getD i 0
    (if prevRsi ≤ prevSignal ∧ currentSignal < currentRsi
      then [CrossoverPoint.mk (rsi.length - m + i) CrossType.bullish] else [])
    ++ (if prevSignal ≤ prevRsi ∧ currentRsi < currentSignal
      then [CrossoverPoint.mk (rsi.length - m + i) CrossType.bearish] else []))

/-- calculateRSIData: the convenience bundle over raw closes. -/
def calculateRSIData (closes : List ℚ) (rsiPeriod : Nat := 14) (signalPeriod : Nat := 9) :
    RSIData :=
  if closes.length < rsiPeriod + signalPeriod then ⟨[], [], []⟩ else
  let rsi := calculateRSI closes rsiPeriod
  let signal := calculateSignal rsi signalPeriod
  ⟨rsi, signal, detectCrossovers rsi signal⟩

/-- Invariant of the SMA rolling-window loop: the two accumulators are the sums
of the first `period` elements of the remaining gain/loss streams (whose
elements satisfy `Pg` resp. `Pl`), and the remaining loop input is the zipped
window stream over those lists. -/
def SmaInv (Pg Pl : ℚ → Prop) (p : Nat) (a b : ℚ) (l : List ((ℚ × ℚ) × (ℚ × ℚ))) : Prop :=
  ∃ gs ls : List ℚ, (∀ x ∈ gs, Pg x) ∧ (∀ x ∈ ls, Pl x) ∧
    a = (gs.take p).sum ∧ b = (ls.take p).sum ∧
    l = ((gs.drop p).zip gs).zip ((ls.drop p).zip ls)

/-- The concrete scenario input of the spec: 20 bars whose closes rise by 1.0
each bar starting at 100.0. -/
def rsi20Bars : List OHLCPoint :=
  (List.range 20).map (fun i =>
    { open_ := 100 + (i : ℚ), high := 100 + (i : ℚ), low := 100 + (i : ℚ),
      close := 100 + (i : ℚ) })

/-- The concrete scenario options: period 14, close source, Wilder smoothing,
clamped edges. -/
def rsi20Opts : RSIOptions :=
  { period := 14, source := RsiPriceSource.close, smoothing := RsiSmoothing.wilder,
    clampEdges := true }

/-! ## Price cache and OHLC aggregator (src/lib/stock-cache.ts)

The JS code buckets points with object keys built from local-calendar
components (`getFullYear()-getMonth()-getDate()`); the embedding uses the UTC
calendar (epoch-day arithmetic) and encodes each bucket key injectively as an
integer: a calendar day as its epoch-day number, a week as the epoch-day number
of its starting Sunday, a month as `year * 12 + month`.  The `date` display
string of a point is not modelled (no computation reads it). -/

/-- ChartDataPoint from api-config.ts: `timestamp` and `price` are required,
OHLC fields and `volume` are optional. -/
structure ChartDataPoint where
  timestamp : ℤ
  price : ℚ
  volume : Option ℚ := none
  open_ : Option ℚ := none
  high : Option ℚ := none
  low : Option ℚ := none
  close : Option ℚ := none
deriving DecidableEq

/-- The `sort((a, b) => a.timestamp - b.timestamp)` calls (JS sort is stable). -/
def sortByTimestamp (data : List ChartDataPoint) : List ChartDataPoint :=
  data.mergeSort (fun a b => decide (a.timestamp ≤ b.timestamp))

/-- The validity filter of `createCandlesticks`: all five aggregate inputs
must be present. -/
def isValidPoint (p : ChartDataPoint) : Bool :=
  p.open_.isSome && p.high.isSome && p.low.isSome && p.close.isSome && p.volume.isSome

/-- `Math.max(...)` over a non-empty list given as head and tail. -/
def maxOf (x : ℚ) (xs : List ℚ) : ℚ := xs.foldl max x

/-- `Math.min(...)` over a non-empty list given as head and tail. -/
def minOf (x : ℚ) (xs : List ℚ) : ℚ := xs.foldl min x

/-- The per-bucket candle built by `createCandlesticks`: sort the group by
timestamp, keep the valid points, and aggregate; an all-invalid bucket is
dropped (`none`). -/
def makeCandle (group : List ChartDataPoint) : Option ChartDataPoint :=
  match (sortByTimestamp group).filter isValidPoint with
  | [] => none
  | v0 :: rest =>
    some { timestamp := v0.timestamp
           price := (rest.getLastD v0).close.getD 0
           volume := some (((v0 :: rest).map (fun p => p.volume.getD 0)).sum)
           open_ := some (v0.open_.getD 0)
           high := some (maxOf (v0.high.getD 0) (rest.map (fun p => p.high.getD 0)))
           low := some (minOf (v0.low.getD 0) (rest.map (fun p => p.low.getD 0)))
           close := some ((rest.getLastD v0).close.getD 0) }

/-- createCandlesticks over the grouped map, modelled as an association list in
key-insertion order (the iteration order of the JS object's string keys). -/
def createCandlesticks (grouped : List (ℤ × List ChartDataPoint)) : List ChartDataPoint :=
  sortByTimestamp (grouped.flatMap (fun kv => (makeCandle kv.2).toList))

/-- `grouped[key].push(point)` on the JS object: append to the existing bucket
of `k`, or add a new key at the end. -/
def insertGrouped {α : Type} (k : ℤ) (p : α) : List (ℤ × List α) → List (ℤ × List α)
  | [] => [(k, [p])]
  | (k2, ps) :: rest =>
    if k2 = k then (k2, ps ++ [p]) :: rest
    else (k2, ps) :: insertGrouped k p rest

/-- The grouping loop (`data.forEach(point => ...)`). -/
def groupByKey {α : Type} (key : α → ℤ) (data : List α) : List (ℤ × List α) :=
  data.foldl (fun acc p => insertGrouped (key p) p acc) []

def MS_PER_DAY : ℤ := 86400000

/-- Calendar day of an epoch-millisecond timestamp (UTC), as an epoch-day
number; stands for the JS `year-month-date` key string. -/
def dayKey (t : ℤ) : ℤ := Int.fdiv t MS_PER_DAY

/-- Day of week of an epoch-day number (0 = Sunday, as JS `getDay()`);
epoch day 0 (1970-01-01) was a Thursday. -/
def dayOfWeek (d : ℤ) : ℤ := (d + 4) % 7

/-- The Sunday starting the week of an epoch-day number
(`weekStart.setDate(date.getDate() - date.getDay())`). -/
def weekOfDay (d : ℤ) : ℤ := d - dayOfWeek d

/-- Week bucket of a timestamp: the epoch-day number of the Sunday starting its
week; a function of the calendar day alone. -/
def weekKey (t : ℤ) : ℤ := weekOfDay (dayKey t)

/-- Proleptic-Gregorian civil date (year, month, day) of an epoch-day number;
the standard era-based conversion, UTC. -/
def civilFromDays (z : ℤ) : ℤ × ℤ × ℤ :=
  let z2 := z + 719468
  let era := Int.fdiv z2 146097
  let doe := z2 - era * 146097
  let yoe := Int.fdiv (doe - Int.fdiv doe 1460 + Int.fdiv doe 36524 - Int.fdiv doe 146096) 365
  let y := yoe + era * 400
  let doy := doe - (365 * yoe + Int.fdiv yoe 4 - Int.fdiv yoe 100)
  let mp := Int.fdiv (5 * doy + 2) 153
  let d := doy - Int.fdiv (153 * mp + 2) 5 + 1
  let m := mp + (if mp < 10 then 3 else -9)
  (if m ≤ 2 then y + 1 else y, m, d)

/-- Month bucket of a timestamp: `year-month`, injectively encoded. -/
def monthKey (t : ℤ) : ℤ :=
  let c := civilFromDays (dayKey t)
  c.1 * 12 + c.2.1

def groupByDays (data : List ChartDataPoint) : List ChartDataPoint :=
  createCandlesticks (groupByKey (fun p => dayKey p.timestamp) data)

def groupByWeeks (data : List ChartDataPoint) : List ChartDataPoint :=
  createCandlesticks (groupByKey (fun p => weekKey p.timestamp) data)

def groupByMonths (data : List ChartDataPoint) : List ChartDataPoint :=
  createCandlesticks (groupByKey (fun p => monthKey p.timestamp) data)

inductive Timeframe
  | d1
  | w1
  | mo1
deriving DecidableEq

/-- groupDataByTimeframe: sort the raw points, dispatch on the timeframe. -/
def groupDataByTimeframe (data : List ChartDataPoint) (tf : Timeframe) :
    List ChartDataPoint :=
  if data.isEmpty then [] else
  match tf with
  | Timeframe.d1 => groupByDays (sortByTimestamp data)
  | Timeframe.w1 => groupByWeeks (sortByTimestamp data)
  | Timeframe.mo1 => groupByMonths (sortByTimestamp data)

/-- CachedStockData.  The `dataRange.from`/`to` display strings are a pure
function of the write time; they are modelled by the write time itself. -/
structure CachedStockData where
  symbol : String
  data : List ChartDataPoint
  lastUpdated : ℤ
  dataRange : ℤ
deriving DecidableEq

def CACHE_EXPIRY : ℤ := 24 * 60 * 60 * 1000

/-- getCachedData on one symbol's slot: returns the read result and the slot
state after the read (an expired entry is purged). -/
def getCachedData (now : ℤ) (stored : Option CachedStockData) :
    Option CachedStockData × Option CachedStockData :=
  match stored with
  | none => (none, none)
  | some d =>
    if CACHE_EXPIRY < now - d.lastUpdated then (none, none)
    else (some d, some d)

/-- setCachedData: full replacement of the slot. -/
def setCachedData (sym : String) (data : List ChartDataPoint) (now : ℤ) :
    CachedStockData :=
  { symbol := sym.toUpper, data := data, lastUpdated := now, dataRange := now }

/-- refreshCacheWithLatest on one symbol's slot, with the freshly fetched
points passed explicitly; returns (whether new points were appended, the slot
state afterwards). -/
def refreshCacheWithLatest (now : ℤ) (stored : Option CachedStockData)
    (latest : List ChartDataPoint) (sym : String) : Bool × Option CachedStockData :=
  let read := getCachedData now stored
  if latest.isEmpty then (false, read.2)
  else
    match read.1 with
    | none => (true, some (setCachedData sym latest now))
    | some cd =>
      let toAppend := latest.filter
        (fun d => ! cd.data.any (fun e => e.timestamp == d.timestamp))
      if toAppend.isEmpty then (false, read.2)
      else
        (true, some { symbol := cd.symbol
                      data := sortByTimestamp (cd.data ++ toAppend)
                      lastUpdated := now
                      dataRange := now })

/-- A raw point carrying a negative volume (upstream feeds can emit these). -/
def negVolPoint : ChartDataPoint :=
  { timestamp := 0, price := 1, volume := some (-5), open_ := some 1, high := some 1,
    low := some 1, close := some 1 }

/-- A malformed raw point: all five fields present but internally inconsistent
(its high is below its open). -/
def badPoint : ChartDataPoint :=
  { timestamp := 0, price := 1, volume := some 1, open_ := some 10, high := some 5,
    low := some 7, close := some 6 }

/-- `H` is the maximum of the values in `l`. -/
def IsMaxOf (H : ℚ) (l : List ℚ) : Prop := H ∈ l ∧ ∀ y ∈ l, y ≤ H

/-- `L` is the minimum of the values in `l`. -/
def IsMinOf (L : ℚ) (l : List ℚ) : Prop := L ∈ l ∧ ∀ y ∈ l, L ≤ y

/-! ## Indicator cache (src/lib/indicator-cache.ts)

JS number-to-string conversion is modelled exactly on the integers that the
hash-level claims exercise: an integral value prints as its decimal digits
(with a leading minus when negative).  A non-integral rational is rendered as
`num/den`; like JS float formatting, this is injective on distinct values,
which is the only property the development uses. -/

/-- Digits of `n` in base `b`, most significant first, with explicit fuel
(structural recursion; the fuel `n + 1` at the call sites is always enough). -/
def natStrAux (b : Nat) : Nat → Nat → List Char
  | 0, _ => []
  | fuel + 1, n =>
    if n < b then [Nat.digitChar n]
    else natStrAux b fuel (n / b) ++ [Nat.digitChar (n % b)]

/-- Decimal/hex rendering of a natural number (`Number.prototype.toString`). -/
def natStr (b n : Nat) : List Char := natStrAux b (n + 1) n

/-- Rendering of an integer (template-literal interpolation of a JS number). -/
def intStr (n : ℤ) : List Char :=
  if n < 0 then '-' :: natStr 10 n.natAbs else natStr 10 n.natAbs

/-- Rendering of a rational price value (see the section comment). -/
def ratStr (q : ℚ) : List Char :=
  if q.den = 1 then intStr q.num else intStr q.num ++ '/' :: natStr 10 q.den

/-- One point's contribution to the hashed string:
`${p.timestamp ?? ''}|${p.open}|${p.high}|${p.low}|${p.close};`. -/
def pointStr (p : OHLCPoint) : List Char :=
  (match p.timestamp with
   | some t => intStr t
   | none => []) ++
  ('|' :: (ratStr p.open_ ++ ('|' :: (ratStr p.high ++ ('|' :: (ratStr p.low ++
    ('|' :: (ratStr p.close ++ [';']))))))))

/-- The accumulated string hashed by `hashOHLC` (volume is never serialized). -/
def ohlcString (ohlc : List OHLCPoint) : List Char :=
  (ohlc.map pointStr).flatten

/-- simpleHash: the 32-bit FNV-1a-style hash (`h ^= code; h = imul(h, prime)`,
all arithmetic mod 2^32, final `>>> 0`). -/
def simpleHash (s : List Char) : Nat :=
  s.foldl (fun h c => ((h ^^^ c.toNat) * 16777619) % 4294967296) 2166136261

/-- hashOHLC: hash of the five-field serialization, rendered in lowercase hex
(`(h >>> 0).toString(16)`). -/
def hashOHLC (ohlc : List OHLCPoint) : String :=
  String.mk (natStr 16 (simpleHash (ohlcString ohlc)))

def timeframeStr : Timeframe → String
  | Timeframe.d1 => "1d"
  | Timeframe.w1 => "1w"
  | Timeframe.mo1 => "1mo"

/-- makeKey: `indicator_cache_SYMBOL:timeframe:indicator:paramsHash:ohlcHash`. -/
def makeKey (symbol : String) (tf : Timeframe) (indicator : String)
    (paramsHash : String) (ohlcHash : String) : String :=
  "indicator_cache_" ++ symbol.toUpper ++ ":" ++ timeframeStr tf ++ ":" ++ indicator ++
    ":" ++ paramsHash ++ ":" ++ ohlcHash

/-- The cache key derived by `getOrComputeRSI`.  `paramsHash` stands for
`hashParams({ options, signalPeriod })`, a pure function of the options and
signal period; the claims hold those fixed, so it is passed through opaquely. -/
def getOrComputeRSIKey (symbol : String) (tf : Timeframe) (paramsHash : String)
    (ohlc : List OHLCPoint) : String :=
  makeKey symbol tf "rsi" paramsHash (hashOHLC ohlc)

/-- First half of a concrete `simpleHash` collision pair (found by search):
two one-bar inputs that differ only in `close` yet hash identically. -/
def hashCexPoint1 : OHLCPoint :=
  { timestamp := some 1, open_ := 2, high := 3, low := 4, close := 752286259895 }

/-- Second half of the collision pair. -/
def hashCexPoint2 : OHLCPoint :=
  { timestamp := some 1, open_ := 2, high := 3, low := 4, close := 428482048307 }

/-! ## Length lemmas for the RSI engine -/

theorem rsiLoop_length {ι : Type} (clampEdges : Bool) (stepA stepB : ℚ → ι → ℚ)
    (post : ℚ → ℚ) (a b : ℚ) (l : List ι) :
    (rsiLoop clampEdges stepA stepB post a b l).length = l.length := by
  induction l generalizing a b with
  | nil => rfl
  | cons x rest ih => simp [rsiLoop, ih]

theorem mapSource_length (ohlc : List OHLCPoint) (source : RsiPriceSource) :
    (mapSource ohlc source).length = ohlc.length := by
  cases source <;> simp [mapSource]

theorem priceChanges_length (closes : List ℚ) :
    (priceChanges closes).length = closes.length - 1 := by
  simp [priceChanges, List.length_zipWith, List.length_tail]

theorem rsiBasicLoop_length (period : Nat) (a b : ℚ) (l : List (ℚ × ℚ)) :
    (rsiBasicLoop period a b l).length = l.length := by
  induction l generalizing a b with
  | nil => rfl
  | cons x rest ih => simp [rsiBasicLoop, ih]

/-- C1: for positive `period` and any price source, smoothing mode, precision and
clamp setting, `calculateRSIWithOptions` returns exactly `inputLength - period`
RSI values when `inputLength > period`, and the empty list when
`inputLength <= period` (insufficient history is an empty result, not an error). -/
theorem calculateRSIWithOptions_length (ohlc : List OHLCPoint) (opts : RSIOptions)
    (hp : 0 < opts.period) :
    (opts.period < ohlc.length →
      (calculateRSIWithOptions ohlc opts).length = ohlc.length - opts.period)
    ∧ (ohlc.length ≤ opts.period → calculateRSIWithOptions ohlc opts = []) := by
  constructor
  · intro hlen
    have h1 : ¬ ohlc.length < opts.period + 1 := by omega
    have h2 : ¬ (mapSource ohlc opts.source).length < opts.period + 1 := by
      rw [mapSource_length]; omega
    unfold calculateRSIWithOptions
    simp only [if_neg h1, if_neg h2]
    cases hq : opts.precision with
    | none =>
      cases hs : opts.smoothing <;>
        simp [rsiLoop_length, List.length_zip, priceChanges_length, mapSource_length] <;>
        omega
    | some prec =>
      cases hs : opts.smoothing <;>
        simp [rsiLoop_length, List.length_zip, priceChanges_length, mapSource_length] <;>
        omega
  · intro hlen
    have h1 : ohlc.length < opts.period + 1 := by omega
    unfold calculateRSIWithOptions
    simp only [if_pos h1]

/-- Witness for C1 at a concrete input: two bars, period 1 (both branches). -/
theorem calculateRSIWithOptions_length_witness :
    (calculateRSIWithOptions
        [{ open_ := 1, high := 1, low := 1, close := 1 },
         { open_ := 1, high := 1, low := 1, close := 2 }] { period := 1 }).length = 2 - 1 ∧
    calculateRSIWithOptions [{ open_ := 1, high := 1, low := 1, close := 1 }] { period := 1 } = [] := by
  constructor
  · exact (calculateRSIWithOptions_length _ _ (by decide)).1 (by decide)
  · exact (calculateRSIWithOptions_length _ _ (by decide)).2 (by decide)

/-! ## Range lemmas for the RSI engine -/

theorem rsiPoint_range (clampEdges : Bool) (avgGain avgLoss : ℚ)
    (hg : 0 ≤ avgGain) (hl : 0 ≤ avgLoss) :
    0 ≤ rsiPoint clampEdges avgGain avgLoss ∧ rsiPoint clampEdges avgGain avgLoss ≤ 100 := by
  unfold rsiPoint
  split_ifs with h1 h2
  · norm_num
  · norm_num
  · have hl' : 0 < avgLoss := lt_of_le_of_ne hl (Ne.symm h2)
    have hrs : 0 ≤ avgGain / avgLoss := div_nonneg hg hl
    have hpos : (0 : ℚ) < 1 + avgGain / avgLoss := by linarith
    have hfrac : 100 / (1 + avgGain / avgLoss) ≤ 100 := by
      rw [div_le_iff₀ hpos]; nlinarith
    have hfrac' : 0 < 100 / (1 + avgGain / avgLoss) := by positivity
    constructor <;> linarith

theorem rsiPointNext_range (clampEdges : Bool) (avgGain avgLoss : ℚ)
    (hg : 0 ≤ avgGain) (hl : 0 ≤ avgLoss) :
    0 ≤ rsiPointNext clampEdges avgGain avgLoss ∧
      rsiPointNext clampEdges avgGain avgLoss ≤ 100 := by
  unfold rsiPointNext
  split_ifs with h1 h2 h3
  · norm_num
  · norm_num
  · norm_num
  · have hl' : 0 < avgLoss := lt_of_le_of_ne hl (Ne.symm h3)
    have hrs : 0 ≤ avgGain / avgLoss := div_nonneg hg hl
    have hpos : (0 : ℚ) < 1 + avgGain / avgLoss := by linarith
    have hfrac : 100 / (1 + avgGain / avgLoss) ≤ 100 := by
      rw [div_le_iff₀ hpos]; nlinarith
    have hfrac' : 0 < 100 / (1 + avgGain / avgLoss) := by positivity
    constructor <;> linarith

/-- All values produced by an `rsiLoop` lie in `[0, 100]`, given an invariant on
the accumulators that is preserved by the step functions and forces the
post-processed accumulators to be non-negative. -/
theorem rsiLoop_range {ι : Type} (clampEdges : Bool) (stepA stepB : ℚ → ι → ℚ)
    (post : ℚ → ℚ) (Inv : ℚ → ℚ → List ι → Prop)
    (pres : ∀ a b x rest, Inv a b (x :: rest) → Inv (stepA a x) (stepB b x) rest)
    (pos : ∀ a b x rest, Inv a b (x :: rest) →
      0 ≤ post (stepA a x) ∧ 0 ≤ post (stepB b x)) :
    ∀ a b l, Inv a b l → ∀ v ∈ rsiLoop clampEdges stepA stepB post a b l,
      0 ≤ v ∧ v ≤ 100 := by
  intro a b l
  induction l generalizing a b with
  | nil => intro _ v hv; simp [rsiLoop] at hv
  | cons x rest ih =>
    intro hinv v hv
    rw [rsiLoop] at hv
    rcases List.mem_cons.mp hv with hv | hv
    · subst hv
      exact rsiPointNext_range _ _ _ (pos a b x rest hinv).1 (pos a b x rest hinv).2
    · exact ih (stepA a x) (stepB b x) (pres a b x rest hinv) v hv

theorem round10_range (p : Nat) (v : ℚ) (h0 : 0 ≤ v) (h100 : v ≤ 100) :
    0 ≤ round10 p v ∧ round10 p v ≤ 100 := by
  unfold round10
  have hpow : (0 : ℚ) < 10 ^ p := by positivity
  constructor
  · apply div_nonneg _ hpow.le
    have : (0 : ℤ) ≤ Int.floor (v * 10 ^ p + 1 / 2) := by
      apply Int.le_floor.mpr; push_cast; positivity
    exact_mod_cast this
  · rw [div_le_iff₀ hpow]
    have hle : Int.floor (v * 10 ^ p + 1 / 2) ≤ 100 * 10 ^ p := by
      have h1 : (Int.floor (v * 10 ^ p + 1 / 2) : ℚ) ≤ v * 10 ^ p + 1 / 2 :=
        Int.floor_le _
      have h2 : v * 10 ^ p + 1 / 2 < ((100 * 10 ^ p : ℤ) : ℚ) + 1 := by
        push_cast
        nlinarith
      have := lt_of_le_of_lt h1 h2
      exact_mod_cast Int.lt_add_one_iff.mp (by exact_mod_cast this)
    calc ((Int.floor (v * 10 ^ p + 1 / 2) : ℤ) : ℚ) ≤ ((100 * 10 ^ p : ℤ) : ℚ) := by
          exact_mod_cast hle
      _ = 100 * 10 ^ p := by push_cast; ring

theorem gains_nonneg (chs : List ℚ) :
    ∀ x ∈ chs.map (fun c => if 0 < c then c else 0), 0 ≤ x := by
  intro x hx
  rcases List.mem_map.mp hx with ⟨c, _, rfl⟩
  split_ifs with h
  · exact h.le
  · exact le_refl 0

theorem losses_nonneg (chs : List ℚ) :
    ∀ x ∈ chs.map (fun c => if c < 0 then |c| else 0), 0 ≤ x := by
  intro x hx
  rcases List.mem_map.mp hx with ⟨c, _, rfl⟩
  split_ifs with h
  · exact abs_nonneg c
  · exact le_refl 0

theorem sum_take_div_nonneg (p : Nat) (l : List ℚ) (h : ∀ x ∈ l, 0 ≤ x) :
    0 ≤ (l.take p).sum / (p : ℚ) := by
  apply div_nonneg _ (by positivity)
  exact List.sum_nonneg (fun x hx => h x (List.take_subset _ _ hx))

/-- Every value of the Wilder branch of `calculateRSIWithOptions` is in `[0,100]`. -/
theorem wilderBranch_range (p : Nat) (hp : 0 < p) (clamp : Bool) (gains losses : List ℚ)
    (hg : ∀ x ∈ gains, 0 ≤ x) (hl : ∀ x ∈ losses, 0 ≤ x) :
    ∀ v ∈ rsiPoint clamp ((gains.take p).sum / p) ((losses.take p).sum / p) ::
        rsiLoop clamp (fun a x => (a * ((p : ℚ) - 1) + x.1) / p)
          (fun b x => (b * ((p : ℚ) - 1) + x.2) / p) id
          ((gains.take p).sum / p) ((losses.take p).sum / p)
          ((gains.drop p).zip (losses.drop p)),
      0 ≤ v ∧ v ≤ 100 := by
  have hp1 : (1 : ℚ) ≤ (p : ℚ) := by exact_mod_cast hp
  intro v hv
  rcases List.mem_cons.mp hv with hv | hv
  · subst hv
    exact rsiPoint_range _ _ _ (sum_take_div_nonneg p gains hg) (sum_take_div_nonneg p losses hl)
  · refine rsiLoop_range clamp _ _ id
      (fun a b l => (0 ≤ a ∧ 0 ≤ b) ∧ ∀ x ∈ l, 0 ≤ x.1 ∧ 0 ≤ x.2)
      ?_ ?_ _ _ _ ?_ v hv
    · rintro a b x rest ⟨⟨ha, hb⟩, hx⟩
      have hx1 := hx x (List.mem_cons_self x rest)
      refine ⟨⟨?_, ?_⟩, fun y hy => hx y (List.mem_cons_of_mem x hy)⟩
      · exact div_nonneg (by nlinarith [hx1.1]) (by positivity)
      · exact div_nonneg (by nlinarith [hx1.2]) (by positivity)
    · rintro a b x rest ⟨⟨ha, hb⟩, hx⟩
      have hx1 := hx x (List.mem_cons_self x rest)
      constructor
      · exact div_nonneg (by nlinarith [hx1.1]) (by positivity)
      · exact div_nonneg (by nlinarith [hx1.2]) (by positivity)
    · refine ⟨⟨sum_take_div_nonneg p gains hg, sum_take_div_nonneg p losses hl⟩, ?_⟩
      intro x hx
      obtain ⟨h1, h2⟩ := List.of_mem_zip hx
      exact ⟨hg _ (List.drop_subset _ _ h1), hl _ (List.drop_subset _ _ h2)⟩

/-- Every value of the EMA branch of `calculateRSIWithOptions` is in `[0,100]`. -/
theorem emaBranch_range (p : Nat) (hp : 0 < p) (clamp : Bool) (gains losses : List ℚ)
    (hg : ∀ x ∈ gains, 0 ≤ x) (hl : ∀ x ∈ losses, 0 ≤ x) :
    ∀ v ∈ rsiPoint clamp ((gains.take p).sum / p) ((losses.take p).sum / p) ::
        rsiLoop clamp (fun a x => 2 / ((p : ℚ) + 1) * x.1 + (1 - 2 / ((p : ℚ) + 1)) * a)
          (fun b x => 2 / ((p : ℚ) + 1) * x.2 + (1 - 2 / ((p : ℚ) + 1)) * b) id
          ((gains.take p).sum / p) ((losses.take p).sum / p)
          ((gains.drop p).zip (losses.drop p)),
      0 ≤ v ∧ v ≤ 100 := by
  have hp1 : (1 : ℚ) ≤ (p : ℚ) := by exact_mod_cast hp
  have halpha0 : 0 ≤ 2 / ((p : ℚ) + 1) := by positivity
  have halpha1 : 2 / ((p : ℚ) + 1) ≤ 1 := by
    rw [div_le_one (by positivity)]; linarith
  intro v hv
  rcases List.mem_cons.mp hv with hv | hv
  · subst hv
    exact rsiPoint_range _ _ _ (sum_take_div_nonneg p gains hg) (sum_take_div_nonneg p losses hl)
  · refine rsiLoop_range clamp _ _ id
      (fun a b l => (0 ≤ a ∧ 0 ≤ b) ∧ ∀ x ∈ l, 0 ≤ x.1 ∧ 0 ≤ x.2)
      ?_ ?_ _ _ _ ?_ v hv
    · rintro a b x rest ⟨⟨ha, hb⟩, hx⟩
      have hx1 := hx x (List.mem_cons_self x rest)
      refine ⟨⟨?_, ?_⟩, fun y hy => hx y (List.mem_cons_of_mem x hy)⟩
      · have h1 := mul_nonneg halpha0 hx1.1
        have h2 := mul_nonneg (by linarith : (0 : ℚ) ≤ 1 - 2 / ((p : ℚ) + 1)) ha
        linarith
      · have h1 := mul_nonneg halpha0 hx1.2
        have h2 := mul_nonneg (by linarith : (0 : ℚ) ≤ 1 - 2 / ((p : ℚ) + 1)) hb
        linarith
    · rintro a b x rest ⟨⟨ha, hb⟩, hx⟩
      have hx1 := hx x (List.mem_cons_self x rest)
      simp only [id_eq]
      constructor
      · have h1 := mul_nonneg halpha0 hx1.1
        have h2 := mul_nonneg (by linarith : (0 : ℚ) ≤ 1 - 2 / ((p : ℚ) + 1)) ha
        linarith
      · have h1 := mul_nonneg halpha0 hx1.2
        have h2 := mul_nonneg (by linarith : (0 : ℚ) ≤ 1 - 2 / ((p : ℚ) + 1)) hb
        linarith
    · refine ⟨⟨sum_take_div_nonneg p gains hg, sum_take_div_nonneg p losses hl⟩, ?_⟩
      intro x hx
      obtain ⟨h1, h2⟩ := List.of_mem_zip hx
      exact ⟨hg _ (List.drop_subset _ _ h1), hl _ (List.drop_subset _ _ h2)⟩

theorem smaInv_pres {Pg Pl : ℚ → Prop} (p : Nat) (hp : 0 < p) (a b : ℚ)
    (x : (ℚ × ℚ) × (ℚ × ℚ)) (rest : List ((ℚ × ℚ) × (ℚ × ℚ)))
    (h : SmaInv Pg Pl p a b (x :: rest)) :
    ∃ gt lt : List ℚ, (∀ y ∈ gt, Pg y) ∧ (∀ y ∈ lt, Pl y) ∧
      a + x.1.1 - x.1.2 = (gt.take p).sum ∧ b + x.2.1 - x.2.2 = (lt.take p).sum ∧
      rest = ((gt.drop p).zip gt).zip ((lt.drop p).zip lt) ∧
      p ≤ gt.length ∧ p ≤ lt.length := by
  obtain ⟨q, rfl⟩ : ∃ q, p = q + 1 := ⟨p - 1, by omega⟩
  obtain ⟨gs, ls, hgs, hls, ha, hb, heq⟩ := h
  rcases gs with _ | ⟨g0, gt⟩
  · simp at heq
  rcases ls with _ | ⟨l0, lt⟩
  · simp at heq
  rw [List.drop_succ_cons, List.drop_succ_cons] at heq
  rcases hgd : gt.drop q with _ | ⟨gp, gdt⟩
  · rw [hgd] at heq; simp at heq
  rcases hld : lt.drop q with _ | ⟨lp, ldt⟩
  · rw [hld] at heq; simp at heq
  rw [hgd, hld] at heq
  simp only [List.zip_cons_cons] at heq
  injection heq with hx hrest
  have hplt : q < gt.length := by
    have hlen := congrArg List.length hgd
    simp only [List.length_drop, List.length_cons] at hlen
    omega
  have hplt2 : q < lt.length := by
    have hlen := congrArg List.length hld
    simp only [List.length_drop, List.length_cons] at hlen
    omega
  have hgp : gp = gt[q] := by
    have h2 : gt[q] :: gt.drop (q + 1) = gp :: gdt := by
      rw [← List.drop_eq_getElem_cons hplt, hgd]
    injection h2 with h3 _
    exact h3.symm
  have hlp : lp = lt[q] := by
    have h2 : lt[q] :: lt.drop (q + 1) = lp :: ldt := by
      rw [← List.drop_eq_getElem_cons hplt2, hld]
    injection h2 with h3 _
    exact h3.symm
  have hgdt : gt.drop (q + 1) = gdt := by
    have h2 : gt[q] :: gt.drop (q + 1) = gp :: gdt := by
      rw [← List.drop_eq_getElem_cons hplt, hgd]
    injection h2
  have hldt : lt.drop (q + 1) = ldt := by
    have h2 : lt[q] :: lt.drop (q + 1) = lp :: ldt := by
      rw [← List.drop_eq_getElem_cons hplt2, hld]
    injection h2
  refine ⟨gt, lt, fun y hy => hgs y (List.mem_cons_of_mem _ hy),
    fun y hy => hls y (List.mem_cons_of_mem _ hy), ?_, ?_, ?_, by omega, by omega⟩
  · rw [hx]
    simp only
    rw [ha, List.take_succ_cons, List.sum_cons, List.sum_take_succ gt q hplt, hgp]
    ring
  · rw [hx]
    simp only
    rw [hb, List.take_succ_cons, List.sum_cons, List.sum_take_succ lt q hplt2, hlp]
    ring
  · rw [hrest, hgdt, hldt]

/-- Every value of the SMA branch of `calculateRSIWithOptions` is in `[0,100]`. -/
theorem smaBranch_range (p : Nat) (hp : 0 < p) (clamp : Bool) (gains losses : List ℚ)
    (hg : ∀ x ∈ gains, 0 ≤ x) (hl : ∀ x ∈ losses, 0 ≤ x) :
    ∀ v ∈ rsiPoint clamp ((gains.take p).sum / p) ((losses.take p).sum / p) ::
        rsiLoop clamp (fun s x => s + x.1.1 - x.1.2) (fun s x => s + x.2.1 - x.2.2)
          (fun s => s / p) (gains.take p).sum (losses.take p).sum
          (((gains.drop p).zip gains).zip ((losses.drop p).zip losses)),
      0 ≤ v ∧ v ≤ 100 := by
  intro v hv
  rcases List.mem_cons.mp hv with hv | hv
  · subst hv
    exact rsiPoint_range _ _ _ (sum_take_div_nonneg p gains hg) (sum_take_div_nonneg p losses hl)
  · refine rsiLoop_range clamp _ _ (fun s => s / p)
      (SmaInv (fun y => 0 ≤ y) (fun y => 0 ≤ y) p) ?_ ?_ _ _ _ ?_ v hv
    · intro a b x rest h
      obtain ⟨gt, lt, hgt, hlt, ha, hb, hrest, _, _⟩ := smaInv_pres p hp a b x rest h
      exact ⟨gt, lt, hgt, hlt, ha, hb, hrest⟩
    · intro a b x rest h
      obtain ⟨gt, lt, hgt, hlt, ha, hb, _, _, _⟩ := smaInv_pres p hp a b x rest h
      simp only
      rw [ha, hb]
      constructor
      · exact div_nonneg (List.sum_nonneg (fun y hy => hgt y (List.take_subset _ _ hy)))
          (by positivity)
      · exact div_nonneg (List.sum_nonneg (fun y hy => hlt y (List.take_subset _ _ hy)))
          (by positivity)
    · exact ⟨gains, losses, hg, hl, rfl, rfl, rfl⟩

/-- C2: every RSI value returned by `calculateRSIWithOptions` lies in `[0, 100]`,
for any OHLC input, any price source, any of the three smoothing modes, with or
without `clampEdges`, and with or without precision rounding. -/
theorem calculateRSIWithOptions_range (ohlc : List OHLCPoint) (opts : RSIOptions)
    (hp : 0 < opts.period) :
    ∀ v ∈ calculateRSIWithOptions ohlc opts, 0 ≤ v ∧ v ≤ 100 := by
  intro v hv
  unfold calculateRSIWithOptions at hv
  dsimp only at hv
  split_ifs at hv with h1 h2
  · simp at hv
  · simp at hv
  · have hg := gains_nonneg (priceChanges (mapSource ohlc opts.source))
    have hl := losses_nonneg (priceChanges (mapSource ohlc opts.source))
    rcases hq : opts.precision with _ | prec <;> rcases hs : opts.smoothing <;>
        simp only [hq, hs] at hv
    · exact wilderBranch_range opts.period hp opts.clampEdges _ _ hg hl v hv
    · exact emaBranch_range opts.period hp opts.clampEdges _ _ hg hl v hv
    · exact smaBranch_range opts.period hp opts.clampEdges _ _ hg hl v hv
    · rcases List.mem_map.mp hv with ⟨w, hw, rfl⟩
      have hr := wilderBranch_range opts.period hp opts.clampEdges _ _ hg hl w hw
      exact round10_range _ w hr.1 hr.2
    · rcases List.mem_map.mp hv with ⟨w, hw, rfl⟩
      have hr := emaBranch_range opts.period hp opts.clampEdges _ _ hg hl w hw
      exact round10_range _ w hr.1 hr.2
    · rcases List.mem_map.mp hv with ⟨w, hw, rfl⟩
      have hr := smaBranch_range opts.period hp opts.clampEdges _ _ hg hl w hw
      exact round10_range _ w hr.1 hr.2

/-- Witness for C2: the hypotheses hold at a two-bar input with period 1, whose
single RSI value 100 is inside the interval. -/
theorem calculateRSIWithOptions_range_witness :
    (100 : ℚ) ∈ calculateRSIWithOptions
        [{ open_ := 1, high := 1, low := 1, close := 1 },
         { open_ := 1, high := 1, low := 1, close := 2 }] { period := 1 } ∧
      0 ≤ (100 : ℚ) ∧ (100 : ℚ) ≤ 100 := by
  have hm : (100 : ℚ) ∈ calculateRSIWithOptions
      [{ open_ := 1, high := 1, low := 1, close := 1 },
       { open_ := 1, high := 1, low := 1, close := 2 }] { period := 1 } := by
    norm_num [calculateRSIWithOptions, mapSource, priceChanges, rsiPoint, rsiPointNext, rsiLoop]
  exact ⟨hm, calculateRSIWithOptions_range _ _ (by decide) 100 hm⟩

theorem rsiPoint_loss_zero (clampEdges : Bool) (avgGain : ℚ) :
    rsiPoint clampEdges avgGain 0 = 100 := by
  unfold rsiPoint
  split_ifs with h1 h2 <;> simp_all

theorem rsiPointNext_clamp_loss_zero (avgGain : ℚ) :
    rsiPointNext true avgGain 0 = 100 := by
  simp [rsiPointNext]

theorem rsiPoint_gain_zero (clampEdges : Bool) (avgLoss : ℚ) (h : avgLoss ≠ 0) :
    rsiPoint clampEdges 0 avgLoss = 0 := by
  unfold rsiPoint
  split_ifs with h1 h2 <;> simp_all

theorem rsiPointNext_clamp_gain_zero (avgLoss : ℚ) (h : avgLoss ≠ 0) :
    rsiPointNext true 0 avgLoss = 0 := by
  simp [rsiPointNext, h]

/-- If the invariant forces the post-processed loss accumulator to stay `0`,
every value of a clamped `rsiLoop` is `100`. -/
theorem rsiLoop_eq100 {ι : Type} (stepA stepB : ℚ → ι → ℚ) (post : ℚ → ℚ)
    (Inv : ℚ → ℚ → List ι → Prop)
    (pres : ∀ a b x rest, Inv a b (x :: rest) → Inv (stepA a x) (stepB b x) rest)
    (hzero : ∀ a b x rest, Inv a b (x :: rest) → post (stepB b x) = 0) :
    ∀ a b l, Inv a b l → ∀ v ∈ rsiLoop true stepA stepB post a b l, v = 100 := by
  intro a b l
  induction l generalizing a b with
  | nil => intro _ v hv; simp [rsiLoop] at hv
  | cons x rest ih =>
    intro hinv v hv
    rw [rsiLoop] at hv
    rcases List.mem_cons.mp hv with hv | hv
    · rw [hv, hzero a b x rest hinv, rsiPointNext_clamp_loss_zero]
    · exact ih (stepA a x) (stepB b x) (pres a b x rest hinv) v hv

/-- If the invariant forces the post-processed gain accumulator to stay `0` and
the post-processed loss accumulator to stay nonzero, every value of a clamped
`rsiLoop` is `0`. -/
theorem rsiLoop_eq0 {ι : Type} (stepA stepB : ℚ → ι → ℚ) (post : ℚ → ℚ)
    (Inv : ℚ → ℚ → List ι → Prop)
    (pres : ∀ a b x rest, Inv a b (x :: rest) → Inv (stepA a x) (stepB b x) rest)
    (hza : ∀ a b x rest, Inv a b (x :: rest) → post (stepA a x) = 0)
    (hnb : ∀ a b x rest, Inv a b (x :: rest) → post (stepB b x) ≠ 0) :
    ∀ a b l, Inv a b l → ∀ v ∈ rsiLoop true stepA stepB post a b l, v = 0 := by
  intro a b l
  induction l generalizing a b with
  | nil => intro _ v hv; simp [rsiLoop] at hv
  | cons x rest ih =>
    intro hinv v hv
    rw [rsiLoop] at hv
    rcases List.mem_cons.mp hv with hv | hv
    · rw [hv, hza a b x rest hinv, rsiPointNext_clamp_gain_zero _ (hnb a b x rest hinv)]
    · exact ih (stepA a x) (stepB b x) (pres a b x rest hinv) v hv

theorem priceChanges_pos_of_chain_lt (closes : List ℚ)
    (h : List.Chain' (fun a b => a < b) closes) :
    ∀ c ∈ priceChanges closes, 0 < c := by
  induction closes with
  | nil => intro c hc; simp [priceChanges] at hc
  | cons a t ih =>
    intro c hc
    cases t with
    | nil => simp [priceChanges] at hc
    | cons b t2 =>
      rw [show priceChanges (a :: b :: t2) = (b - a) :: priceChanges (b :: t2) from rfl] at hc
      rcases List.mem_cons.mp hc with hc | hc
      · rw [hc]
        exact sub_pos.mpr (List.chain'_cons.mp h).1
      · exact ih (List.chain'_cons.mp h).2 c hc

theorem priceChanges_neg_of_chain_gt (closes : List ℚ)
    (h : List.Chain' (fun a b => a > b) closes) :
    ∀ c ∈ priceChanges closes, c < 0 := by
  induction closes with
  | nil => intro c hc; simp [priceChanges] at hc
  | cons a t ih =>
    intro c hc
    cases t with
    | nil => simp [priceChanges] at hc
    | cons b t2 =>
      rw [show priceChanges (a :: b :: t2) = (b - a) :: priceChanges (b :: t2) from rfl] at hc
      rcases List.mem_cons.mp hc with hc | hc
      · rw [hc]
        exact sub_neg.mpr (List.chain'_cons.mp h).1
      · exact ih (List.chain'_cons.mp h).2 c hc

theorem losses_eq_zero_of_pos (chs : List ℚ) (h : ∀ c ∈ chs, 0 < c) :
    ∀ x ∈ chs.map (fun c => if c < 0 then |c| else 0), x = 0 := by
  intro x hx
  rcases List.mem_map.mp hx with ⟨c, hc, rfl⟩
  have := h c hc
  rw [if_neg (by linarith)]

theorem gains_eq_zero_of_neg (chs : List ℚ) (h : ∀ c ∈ chs, c < 0) :
    ∀ x ∈ chs.map (fun c => if 0 < c then c else 0), x = 0 := by
  intro x hx
  rcases List.mem_map.mp hx with ⟨c, hc, rfl⟩
  have := h c hc
  rw [if_neg (by linarith)]

theorem losses_pos_of_neg (chs : List ℚ) (h : ∀ c ∈ chs, c < 0) :
    ∀ x ∈ chs.map (fun c => if c < 0 then |c| else 0), 0 < x := by
  intro x hx
  rcases List.mem_map.mp hx with ⟨c, hc, rfl⟩
  have := h c hc
  rw [if_pos this]
  exact abs_pos.mpr (by linarith)

theorem sum_take_eq_zero (p : Nat) (l : List ℚ) (h : ∀ x ∈ l, x = 0) :
    (l.take p).sum = 0 := by
  apply List.sum_eq_zero
  intro x hx
  exact h x (List.take_subset _ _ hx)

theorem sum_take_pos (p : Nat) (hp : 0 < p) (l : List ℚ) (hlen : p ≤ l.length)
    (h : ∀ x ∈ l, 0 < x) : 0 < (l.take p).sum := by
  apply List.sum_pos
  · intro x hx
    exact h x (List.take_subset _ _ hx)
  · intro hne
    have h2 := congrArg List.length hne
    rw [List.length_take] at h2
    simp only [List.length_nil] at h2
    omega

theorem round10_100 (p : Nat) : round10 p 100 = 100 := by
  unfold round10
  have hcast : (100 : ℚ) * 10 ^ p + 1 / 2 = ((100 * 10 ^ p : ℤ) : ℚ) + 1 / 2 := by
    push_cast; ring
  rw [hcast, Int.floor_int_add]
  have hfl : ⌊(1 / 2 : ℚ)⌋ = 0 := by norm_num
  rw [hfl, add_zero]
  have hne : ((10 : ℚ) ^ p) ≠ 0 := by positivity
  push_cast
  field_simp

theorem round10_0 (p : Nat) : round10 p 0 = 0 := by
  unfold round10
  norm_num

/-- All values of the clamped Wilder branch are 100 when every loss is zero. -/
theorem wilderBranch_eq100 (p : Nat) (gains losses : List ℚ)
    (hl0 : ∀ x ∈ losses, x = 0) :
    ∀ v ∈ rsiPoint true ((gains.take p).sum / p) ((losses.take p).sum / p) ::
        rsiLoop true (fun a x => (a * ((p : ℚ) - 1) + x.1) / p)
          (fun b x => (b * ((p : ℚ) - 1) + x.2) / p) id
          ((gains.take p).sum / p) ((losses.take p).sum / p)
          ((gains.drop p).zip (losses.drop p)),
      v = 100 := by
  have hsum : ((losses.take p).sum : ℚ) / p = 0 := by
    rw [sum_take_eq_zero p losses hl0, zero_div]
  intro v hv
  rcases List.mem_cons.mp hv with hv | hv
  · rw [hv, hsum, rsiPoint_loss_zero]
  · refine rsiLoop_eq100 _ _ id (fun a b l => b = 0 ∧ ∀ x ∈ l, x.2 = 0)
      ?_ ?_ _ _ _ ⟨hsum, ?_⟩ v hv
    · rintro a b x rest ⟨hb, hx⟩
      refine ⟨?_, fun y hy => hx y (List.mem_cons_of_mem x hy)⟩
      rw [hb, hx x (List.mem_cons_self x rest)]
      ring_nf
    · rintro a b x rest ⟨hb, hx⟩
      simp only [id_eq]
      rw [hb, hx x (List.mem_cons_self x rest)]
      ring_nf
    · intro x hx
      obtain ⟨_, h2⟩ := List.of_mem_zip hx
      exact hl0 _ (List.drop_subset _ _ h2)

/-- All values of the clamped EMA branch are 100 when every loss is zero. -/
theorem emaBranch_eq100 (p : Nat) (gains losses : List ℚ)
    (hl0 : ∀ x ∈ losses, x = 0) :
    ∀ v ∈ rsiPoint true ((gains.take p).sum / p) ((losses.take p).sum / p) ::
        rsiLoop true (fun a x => 2 / ((p : ℚ) + 1) * x.1 + (1 - 2 / ((p : ℚ) + 1)) * a)
          (fun b x => 2 / ((p : ℚ) + 1) * x.2 + (1 - 2 / ((p : ℚ) + 1)) * b) id
          ((gains.take p).sum / p) ((losses.take p).sum / p)
          ((gains.drop p).zip (losses.drop p)),
      v = 100 := by
  have hsum : ((losses.take p).sum : ℚ) / p = 0 := by
    rw [sum_take_eq_zero p losses hl0, zero_div]
  intro v hv
  rcases List.mem_cons.mp hv with hv | hv
  · rw [hv, hsum, rsiPoint_loss_zero]
  · refine rsiLoop_eq100 _ _ id (fun a b l => b = 0 ∧ ∀ x ∈ l, x.2 = 0)
      ?_ ?_ _ _ _ ⟨hsum, ?_⟩ v hv
    · rintro a b x rest ⟨hb, hx⟩
      refine ⟨?_, fun y hy => hx y (List.mem_cons_of_mem x hy)⟩
      rw [hb, hx x (List.mem_cons_self x rest)]
      ring
    · rintro a b x rest ⟨hb, hx⟩
      simp only [id_eq]
      rw [hb, hx x (List.mem_cons_self x rest)]
      ring
    · intro x hx
      obtain ⟨_, h2⟩ := List.of_mem_zip hx
      exact hl0 _ (List.drop_subset _ _ h2)

/-- All values of the clamped SMA branch are 100 when every loss is zero. -/
theorem smaBranch_eq100 (p : Nat) (hp : 0 < p) (gains losses : List ℚ)
    (hl0 : ∀ x ∈ losses, x = 0) :
    ∀ v ∈ rsiPoint true ((gains.take p).sum / p) ((losses.take p).sum / p) ::
        rsiLoop true (fun s x => s + x.1.1 - x.1.2) (fun s x => s + x.2.1 - x.2.2)
          (fun s => s / p) (gains.take p).sum (losses.take p).sum
          (((gains.drop p).zip gains).zip ((losses.drop p).zip losses)),
      v = 100 := by
  have hsum : ((losses.take p).sum : ℚ) / p = 0 := by
    rw [sum_take_eq_zero p losses hl0, zero_div]
  intro v hv
  rcases List.mem_cons.mp hv with hv | hv
  · rw [hv, hsum, rsiPoint_loss_zero]
  · refine rsiLoop_eq100 _ _ (fun s => s / p)
      (SmaInv (fun _ => True) (fun y => y = 0) p) ?_ ?_ _ _ _ ?_ v hv
    · intro a b x rest h
      obtain ⟨gt, lt, hgt, hlt, ha, hb, hrest, _, _⟩ := smaInv_pres p hp a b x rest h
      exact ⟨gt, lt, hgt, hlt, ha, hb, hrest⟩
    · intro a b x rest h
      obtain ⟨gt, lt, hgt, hlt, ha, hb, _, _, _⟩ := smaInv_pres p hp a b x rest h
      simp only
      rw [hb, sum_take_eq_zero p lt hlt, zero_div]
    · exact ⟨gains, losses, fun _ _ => trivial, hl0, rfl, rfl, rfl⟩

/-- All values of the clamped Wilder branch are 0 when every gain is zero and
every loss is positive (with a full first window). -/
theorem wilderBranch_eq0 (p : Nat) (hp : 0 < p) (gains losses : List ℚ)
    (hg0 : ∀ x ∈ gains, x = 0) (hlpos : ∀ x ∈ losses, 0 < x)
    (hlen : p ≤ losses.length) :
    ∀ v ∈ rsiPoint true ((gains.take p).sum / p) ((losses.take p).sum / p) ::
        rsiLoop true (fun a x => (a * ((p : ℚ) - 1) + x.1) / p)
          (fun b x => (b * ((p : ℚ) - 1) + x.2) / p) id
          ((gains.take p).sum / p) ((losses.take p).sum / p)
          ((gains.drop p).zip (losses.drop p)),
      v = 0 := by
  have hp1 : (1 : ℚ) ≤ (p : ℚ) := by exact_mod_cast hp
  have hga : ((gains.take p).sum : ℚ) / p = 0 := by
    rw [sum_take_eq_zero p gains hg0, zero_div]
  have hlsum : 0 < (losses.take p).sum := sum_take_pos p hp losses hlen hlpos
  have hla : 0 < ((losses.take p).sum : ℚ) / p := div_pos hlsum (by positivity)
  intro v hv
  rcases List.mem_cons.mp hv with hv | hv
  · rw [hv, hga, rsiPoint_gain_zero _ _ (ne_of_gt hla)]
  · refine rsiLoop_eq0 _ _ id
      (fun a b l => a = 0 ∧ 0 < b ∧ ∀ x ∈ l, x.1 = 0 ∧ 0 < x.2)
      ?_ ?_ ?_ _ _ _ ⟨hga, hla, ?_⟩ v hv
    · rintro a b x rest ⟨ha, hb, hx⟩
      have hx1 := hx x (List.mem_cons_self x rest)
      refine ⟨?_, ?_, fun y hy => hx y (List.mem_cons_of_mem x hy)⟩
      · rw [ha, hx1.1]; ring_nf
      · apply div_pos ?_ (by positivity)
        nlinarith [hx1.2]
    · rintro a b x rest ⟨ha, hb, hx⟩
      have hx1 := hx x (List.mem_cons_self x rest)
      simp only [id_eq]
      rw [ha, hx1.1]; ring_nf
    · rintro a b x rest ⟨ha, hb, hx⟩
      have hx1 := hx x (List.mem_cons_self x rest)
      simp only [id_eq]
      have : 0 < (b * ((p : ℚ) - 1) + x.2) / p := by
        apply div_pos ?_ (by positivity)
        nlinarith [hx1.2]
      exact ne_of_gt this
    · intro x hx
      obtain ⟨h1, h2⟩ := List.of_mem_zip hx
      exact ⟨hg0 _ (List.drop_subset _ _ h1), hlpos _ (List.drop_subset _ _ h2)⟩

/-- All values of the clamped EMA branch are 0 when every gain is zero and
every loss is positive (with a full first window). -/
theorem emaBranch_eq0 (p : Nat) (hp : 0 < p) (gains losses : List ℚ)
    (hg0 : ∀ x ∈ gains, x = 0) (hlpos : ∀ x ∈ losses, 0 < x)
    (hlen : p ≤ losses.length) :
    ∀ v ∈ rsiPoint true ((gains.take p).sum / p) ((losses.take p).sum / p) ::
        rsiLoop true (fun a x => 2 / ((p : ℚ) + 1) * x.1 + (1 - 2 / ((p : ℚ) + 1)) * a)
          (fun b x => 2 / ((p : ℚ) + 1) * x.2 + (1 - 2 / ((p : ℚ) + 1)) * b) id
          ((gains.take p).sum / p) ((losses.take p).sum / p)
          ((gains.drop p).zip (losses.drop p)),
      v = 0 := by
  have hp1 : (1 : ℚ) ≤ (p : ℚ) := by exact_mod_cast hp
  have halpha0 : 0 < 2 / ((p : ℚ) + 1) := by positivity
  have halpha1 : 2 / ((p : ℚ) + 1) ≤ 1 := by
    rw [div_le_one (by positivity)]; linarith
  have hga : ((gains.take p).sum : ℚ) / p = 0 := by
    rw [sum_take_eq_zero p gains hg0, zero_div]
  have hlsum : 0 < (losses.take p).sum := sum_take_pos p hp losses hlen hlpos
  have hla : 0 < ((losses.take p).sum : ℚ) / p := div_pos hlsum (by positivity)
  intro v hv
  rcases List.mem_cons.mp hv with hv | hv
  · rw [hv, hga, rsiPoint_gain_zero _ _ (ne_of_gt hla)]
  · refine rsiLoop_eq0 _ _ id
      (fun a b l => a = 0 ∧ 0 < b ∧ ∀ x ∈ l, x.1 = 0 ∧ 0 < x.2)
      ?_ ?_ ?_ _ _ _ ⟨hga, hla, ?_⟩ v hv
    · rintro a b x rest ⟨ha, hb, hx⟩
      have hx1 := hx x (List.mem_cons_self x rest)
      refine ⟨?_, ?_, fun y hy => hx y (List.mem_cons_of_mem x hy)⟩
      · rw [ha, hx1.1]; ring
      · have h1 : 0 < 2 / ((p : ℚ) + 1) * x.2 := mul_pos halpha0 hx1.2
        have h2 : 0 ≤ (1 - 2 / ((p : ℚ) + 1)) * b :=
          mul_nonneg (by linarith) hb.le
        linarith
    · rintro a b x rest ⟨ha, hb, hx⟩
      have hx1 := hx x (List.mem_cons_self x rest)
      simp only [id_eq]
      rw [ha, hx1.1]; ring
    · rintro a b x rest ⟨ha, hb, hx⟩
      have hx1 := hx x (List.mem_cons_self x rest)
      simp only [id_eq]
      have h1 : 0 < 2 / ((p : ℚ) + 1) * x.2 := mul_pos halpha0 hx1.2
      have h2 : 0 ≤ (1 - 2 / ((p : ℚ) + 1)) * b :=
        mul_nonneg (by linarith) hb.le
      exact ne_of_gt (by linarith)
    · intro x hx
      obtain ⟨h1, h2⟩ := List.of_mem_zip hx
      exact ⟨hg0 _ (List.drop_subset _ _ h1), hlpos _ (List.drop_subset _ _ h2)⟩

/-- All values of the clamped SMA branch are 0 when every gain is zero and
every loss is positive (with a full first window). -/
theorem smaBranch_eq0 (p : Nat) (hp : 0 < p) (gains losses : List ℚ)
    (hg0 : ∀ x ∈ gains, x = 0) (hlpos : ∀ x ∈ losses, 0 < x)
    (hlen : p ≤ losses.length) :
    ∀ v ∈ rsiPoint true ((gains.take p).sum / p) ((losses.take p).sum / p) ::
        rsiLoop true (fun s x => s + x.1.1 - x.1.2) (fun s x => s + x.2.1 - x.2.2)
          (fun s => s / p) (gains.take p).sum (losses.take p).sum
          (((gains.drop p).zip gains).zip ((losses.drop p).zip losses)),
      v = 0 := by
  have hga : ((gains.take p).sum : ℚ) / p = 0 := by
    rw [sum_take_eq_zero p gains hg0, zero_div]
  have hlsum : 0 < (losses.take p).sum := sum_take_pos p hp losses hlen hlpos
  have hla : 0 < ((losses.take p).sum : ℚ) / p := div_pos hlsum (by positivity)
  intro v hv
  rcases List.mem_cons.mp hv with hv | hv
  · rw [hv, hga, rsiPoint_gain_zero _ _ (ne_of_gt hla)]
  · refine rsiLoop_eq0 _ _ (fun s => s / p)
      (SmaInv (fun y => y = 0) (fun y => 0 < y) p) ?_ ?_ ?_ _ _ _ ?_ v hv
    · intro a b x rest h
      obtain ⟨gt, lt, hgt, hlt, ha, hb, hrest, _, _⟩ := smaInv_pres p hp a b x rest h
      exact ⟨gt, lt, hgt, hlt, ha, hb, hrest⟩
    · intro a b x rest h
      obtain ⟨gt, lt, hgt, hlt, ha, hb, _, _, _⟩ := smaInv_pres p hp a b x rest h
      simp only
      rw [ha, sum_take_eq_zero p gt hgt, zero_div]
    · intro a b x rest h
      obtain ⟨gt, lt, hgt, hlt, ha, hb, _, _, hltlen⟩ := smaInv_pres p hp a b x rest h
      simp only
      rw [hb]
      exact ne_of_gt (div_pos (sum_take_pos p hp lt hltlen hlt) (by positivity))
    · exact ⟨gains, losses, hg0, hlpos, rfl, rfl, rfl⟩

/-- C3: with `clampEdges = true` and positive period, a strictly increasing
source-price sequence yields only RSI values equal to 100, a strictly
decreasing one yields only values equal to 0, and the concrete 20-bar rising
scenario (period 14, close source, Wilder smoothing) yields exactly six values,
all equal to 100. -/
theorem calculateRSIWithOptions_extremes (ohlc : List OHLCPoint) (opts : RSIOptions)
    (hclamp : opts.clampEdges = true) (hp : 0 < opts.period) :
    (List.Chain' (fun a b => a < b) (mapSource ohlc opts.source) →
      ∀ v ∈ calculateRSIWithOptions ohlc opts, v = 100)
    ∧ (List.Chain' (fun a b => a > b) (mapSource ohlc opts.source) →
      ∀ v ∈ calculateRSIWithOptions ohlc opts, v = 0)
    ∧ calculateRSIWithOptions rsi20Bars rsi20Opts = List.replicate 6 100 := by
  refine ⟨?_, ?_, ?_⟩
  · intro hchain v hv
    unfold calculateRSIWithOptions at hv
    dsimp only at hv
    split_ifs at hv with h1 h2
    · simp at hv
    · simp at hv
    · have hl0 := losses_eq_zero_of_pos _ (priceChanges_pos_of_chain_lt _ hchain)
      rw [hclamp] at hv
      rcases hq : opts.precision with _ | prec <;> rcases hs : opts.smoothing <;>
          simp only [hq, hs] at hv
      · exact wilderBranch_eq100 opts.period _ _ hl0 v hv
      · exact emaBranch_eq100 opts.period _ _ hl0 v hv
      · exact smaBranch_eq100 opts.period hp _ _ hl0 v hv
      · rcases List.mem_map.mp hv with ⟨w, hw, rfl⟩
        rw [wilderBranch_eq100 opts.period _ _ hl0 w hw, round10_100]
      · rcases List.mem_map.mp hv with ⟨w, hw, rfl⟩
        rw [emaBranch_eq100 opts.period _ _ hl0 w hw, round10_100]
      · rcases List.mem_map.mp hv with ⟨w, hw, rfl⟩
        rw [smaBranch_eq100 opts.period hp _ _ hl0 w hw, round10_100]
  · intro hchain v hv
    unfold calculateRSIWithOptions at hv
    dsimp only at hv
    split_ifs at hv with h1 h2
    · simp at hv
    · simp at hv
    · have hneg := priceChanges_neg_of_chain_gt _ hchain
      have hg0 := gains_eq_zero_of_neg _ hneg
      have hlpos := losses_pos_of_neg _ hneg
      have hlen : opts.period ≤
          ((priceChanges (mapSource ohlc opts.source)).map
            (fun c => if c < 0 then |c| else 0)).length := by
        rw [List.length_map, priceChanges_length, mapSource_length]
        omega
      rw [hclamp] at hv
      rcases hq : opts.precision with _ | prec <;> rcases hs : opts.smoothing <;>
          simp only [hq, hs] at hv
      · exact wilderBranch_eq0 opts.period hp _ _ hg0 hlpos hlen v hv
      · exact emaBranch_eq0 opts.period hp _ _ hg0 hlpos hlen v hv
      · exact smaBranch_eq0 opts.period hp _ _ hg0 hlpos hlen v hv
      · rcases List.mem_map.mp hv with ⟨w, hw, rfl⟩
        rw [wilderBranch_eq0 opts.period hp _ _ hg0 hlpos hlen w hw, round10_0]
      · rcases List.mem_map.mp hv with ⟨w, hw, rfl⟩
        rw [emaBranch_eq0 opts.period hp _ _ hg0 hlpos hlen w hw, round10_0]
      · rcases List.mem_map.mp hv with ⟨w, hw, rfl⟩
        rw [smaBranch_eq0 opts.period hp _ _ hg0 hlpos hlen w hw, round10_0]
  · norm_num [rsi20Bars, rsi20Opts, List.range_succ, calculateRSIWithOptions, mapSource,
      priceChanges, rsiPoint, rsiPointNext, rsiLoop, List.replicate]

/-- Witness for C3: the concrete rising 20-bar scenario, with the hypotheses
(clamped edges, positive period) discharged concretely. -/
theorem calculateRSIWithOptions_extremes_witness :
    calculateRSIWithOptions rsi20Bars rsi20Opts = List.replicate 6 100 :=
  (calculateRSIWithOptions_extremes rsi20Bars rsi20Opts rfl (by decide)).2.2

/-- C10: the convenience bundle returns the fully empty result whenever
`closes.length < rsiPeriod + signalPeriod`, even for lengths at which
`calculateRSI` alone would return a non-empty RSI sequence. -/
theorem calculateRSIData_minimum_history (closes : List ℚ) (rsiPeriod signalPeriod : Nat)
    (hp : 0 < rsiPeriod) (hlen : closes.length < rsiPeriod + signalPeriod) :
    calculateRSIData closes rsiPeriod signalPeriod = ⟨[], [], []⟩
    ∧ (rsiPeriod + 1 ≤ closes.length → calculateRSI closes rsiPeriod ≠ []) := by
  constructor
  · unfold calculateRSIData
    rw [if_pos hlen]
  · intro h2
    unfold calculateRSI
    rw [if_neg (by omega)]
    simp

/-- Witness for C10: 15 closes with rsiPeriod 14, signalPeriod 9 — the bundle is
empty although the bare RSI is computable. -/
theorem calculateRSIData_minimum_history_witness :
    calculateRSIData ((List.range 15).map (fun i => (i : ℚ))) 14 9 = ⟨[], [], []⟩ ∧
    calculateRSI ((List.range 15).map (fun i => (i : ℚ))) 14 ≠ [] := by
  have h := calculateRSIData_minimum_history ((List.range 15).map (fun i => (i : ℚ))) 14 9
    (by decide) (by decide)
  exact ⟨h.1, h.2 (by decide)⟩

theorem mem_optPair {α : Type} (c x y : α) (P Q : Prop) [Decidable P] [Decidable Q] :
    (c ∈ (if P then [x] else []) ++ (if Q then [y] else [])) ↔
      ((P ∧ c = x) ∨ (Q ∧ c = y)) := by
  split_ifs with h1 h2 <;> simp_all

/-- Membership characterization of `detectCrossovers`: an event is emitted at
step `i` of the aligned walk exactly when the corresponding strict-crossing
condition holds, with the recorded time `rsi.length - m + i` expressed in the
RSI array's own indexing. -/
theorem detectCrossovers_mem (rsi signal : List ℚ) (hr : rsi.length ≠ 0)
    (hs : signal.length ≠ 0) (c : CrossoverPoint) :
    c ∈ detectCrossovers rsi signal ↔
      ∃ i, 1 ≤ i ∧ i < min rsi.length signal.length ∧
        c.time = rsi.length - min rsi.length signal.length + i ∧
        ((c.type = CrossType.bullish ∧
           rsi.getD (rsi.length - min rsi.length signal.length + i - 1) 0 ≤
             signal.getD (i - 1) 0 ∧
           signal.getD i 0 <
             rsi.getD (rsi.length - min rsi.length signal.length + i) 0)
         ∨ (c.type = CrossType.bearish ∧
           signal.getD (i - 1) 0 ≤
             rsi.getD (rsi.length - min rsi.length signal.length + i - 1) 0 ∧
           rsi.getD (rsi.length - min rsi.length signal.length + i) 0 <
             signal.getD i 0)) := by
  have hm1 : 1 ≤ min rsi.length signal.length := by omega
  unfold detectCrossovers
  rw [if_neg (by tauto)]
  dsimp only
  rw [List.mem_flatMap]
  constructor
  · rintro ⟨i, hir, hin⟩
    rw [List.mem_range'_1] at hir
    rw [mem_optPair] at hin
    refine ⟨i, by omega, by omega, ?_⟩
    rcases hin with ⟨hcond, rfl⟩ | ⟨hcond, rfl⟩
    · exact ⟨rfl, Or.inl ⟨rfl, hcond.1, hcond.2⟩⟩
    · exact ⟨rfl, Or.inr ⟨rfl, hcond.1, hcond.2⟩⟩
  · rintro ⟨i, hi1, hi2, htime, hcase⟩
    refine ⟨i, List.mem_range'_1.mpr ⟨hi1, by omega⟩, ?_⟩
    rw [mem_optPair]
    obtain ⟨t, ty⟩ := c
    simp only at htime
    subst htime
    rcases hcase with ⟨hty, h1, h2⟩ | ⟨hty, h1, h2⟩ <;> simp only at hty <;> subst hty
    · exact Or.inl ⟨⟨h1, h2⟩, rfl⟩
    · exact Or.inr ⟨⟨h1, h2⟩, rfl⟩

/-- C4: `detectCrossovers` emits a bullish event at aligned step `i` exactly
when the previous RSI is at most the previous signal and the current RSI is
strictly above the current signal (bearish symmetric); every recorded time is
a valid index into the RSI array beyond the aligned start; and no step emits
both kinds of events. -/
theorem detectCrossovers_spec (rsi signal : List ℚ) :
    (∀ i, 1 ≤ i → i < min rsi.length signal.length →
      ((CrossoverPoint.mk (rsi.length - min rsi.length signal.length + i)
          CrossType.bullish ∈ detectCrossovers rsi signal ↔
        (rsi.getD (rsi.length - min rsi.length signal.length + i - 1) 0 ≤
            signal.getD (i - 1) 0 ∧
          signal.getD i 0 <
            rsi.getD (rsi.length - min rsi.length signal.length + i) 0)) ∧
       (CrossoverPoint.mk (rsi.length - min rsi.length signal.length + i)
          CrossType.bearish ∈ detectCrossovers rsi signal ↔
        (signal.getD (i - 1) 0 ≤
            rsi.getD (rsi.length - min rsi.length signal.length + i - 1) 0 ∧
          rsi.getD (rsi.length - min rsi.length signal.length + i) 0 <
            signal.getD i 0))))
    ∧ (∀ c ∈ detectCrossovers rsi signal,
        rsi.length - min rsi.length signal.length + 1 ≤ c.time ∧ c.time < rsi.length)
    ∧ (∀ t, ¬(CrossoverPoint.mk t CrossType.bullish ∈ detectCrossovers rsi signal ∧
              CrossoverPoint.mk t CrossType.bearish ∈ detectCrossovers rsi signal)) := by
  by_cases hempty : rsi.length = 0 ∨ signal.length = 0
  · have hnil : detectCrossovers rsi signal = [] := by
      unfold detectCrossovers
      rw [if_pos hempty]
    refine ⟨?_, ?_, ?_⟩
    · intro i hi1 hi2
      exfalso
      omega
    · intro c hc
      rw [hnil] at hc
      simp at hc
    · intro t ht
      rw [hnil] at ht
      simp at ht
  · push_neg at hempty
    obtain ⟨hr, hs⟩ := hempty
    refine ⟨?_, ?_, ?_⟩
    · intro i hi1 hi2
      constructor
      · rw [detectCrossovers_mem rsi signal hr hs]
        constructor
        · rintro ⟨j, hj1, hj2, htime, hcase⟩
          simp only at htime
          have hij : j = i := by omega
          subst hij
          rcases hcase with ⟨_, h1, h2⟩ | ⟨hty, _, _⟩
          · exact ⟨h1, h2⟩
          · simp at hty
        · rintro ⟨h1, h2⟩
          exact ⟨i, hi1, hi2, rfl, Or.inl ⟨rfl, h1, h2⟩⟩
      · rw [detectCrossovers_mem rsi signal hr hs]
        constructor
        · rintro ⟨j, hj1, hj2, htime, hcase⟩
          simp only at htime
          have hij : j = i := by omega
          subst hij
          rcases hcase with ⟨hty, _, _⟩ | ⟨_, h1, h2⟩
          · simp at hty
          · exact ⟨h1, h2⟩
        · rintro ⟨h1, h2⟩
          exact ⟨i, hi1, hi2, rfl, Or.inr ⟨rfl, h1, h2⟩⟩
    · intro c hc
      rw [detectCrossovers_mem rsi signal hr hs] at hc
      obtain ⟨i, hi1, hi2, htime, _⟩ := hc
      have hmle : min rsi.length signal.length ≤ rsi.length := by omega
      omega
    · intro t ht
      obtain ⟨hbull, hbear⟩ := ht
      rw [detectCrossovers_mem rsi signal hr hs] at hbull hbear
      obtain ⟨i, hi1, hi2, hti, hci⟩ := hbull
      obtain ⟨j, hj1, hj2, htj, hcj⟩ := hbear
      simp only at hti htj
      have hij : j = i := by omega
      subst hij
      rcases hci with ⟨_, _, hlt1⟩ | ⟨hty, _, _⟩
      · rcases hcj with ⟨hty2, _, _⟩ | ⟨_, _, hlt2⟩
        · simp at hty2
        · exact absurd hlt2 (not_lt.mpr hlt1.le)
      · simp at hty

/-- Candles of `createCandlesticks` are exactly the `makeCandle` results of the
buckets. -/
theorem mem_createCandlesticks (grouped : List (ℤ × List ChartDataPoint))
    (c : ChartDataPoint) :
    c ∈ createCandlesticks grouped ↔ ∃ kv ∈ grouped, makeCandle kv.2 = some c := by
  unfold createCandlesticks sortByTimestamp
  rw [(List.mergeSort_perm _ _).mem_iff, List.mem_flatMap]
  constructor
  · rintro ⟨kv, hkv, hc⟩
    rcases hm : makeCandle kv.2 with _ | c2 <;> rw [hm] at hc
    · simp at hc
    · simp only [Option.toList_some, List.mem_singleton] at hc
      exact ⟨kv, hkv, by rw [hm, hc]⟩
  · rintro ⟨kv, hkv, hc⟩
    exact ⟨kv, hkv, by rw [hc]; simp⟩

/-- Inversion of `makeCandle`: the bucket has a non-empty valid sublist and the
candle fields are the aggregates over it. -/
theorem makeCandle_fields (group : List ChartDataPoint) (c : ChartDataPoint)
    (h : makeCandle group = some c) :
    ∃ v0 rest, (sortByTimestamp group).filter isValidPoint = v0 :: rest ∧
      c.timestamp = v0.timestamp ∧
      c.open_ = some (v0.open_.getD 0) ∧
      c.high = some (maxOf (v0.high.getD 0) (rest.map (fun p => p.high.getD 0))) ∧
      c.low = some (minOf (v0.low.getD 0) (rest.map (fun p => p.low.getD 0))) ∧
      c.close = some ((rest.getLastD v0).close.getD 0) ∧
      c.volume = some (((v0 :: rest).map (fun p => p.volume.getD 0)).sum) := by
  unfold makeCandle at h
  rcases hs : (sortByTimestamp group).filter isValidPoint with _ | ⟨v0, rest⟩ <;>
      rw [hs] at h
  · simp at h
  · simp only [Option.some.injEq] at h
    subst h
    exact ⟨v0, rest, rfl, rfl, rfl, rfl, rfl, rfl, rfl⟩

/-- C5 (amended): every candle's volume is the plain sum of its bucket's valid
points' volumes — no absolute-value clamping — and is therefore non-negative
whenever all the bucket's volumes are non-negative, but not in general. -/
theorem createCandlesticks_volume (grouped : List (ℤ × List ChartDataPoint)) :
    ∀ c ∈ createCandlesticks grouped, ∃ kv ∈ grouped,
      c.volume = some (((kv.2.filter isValidPoint).map (fun p => p.volume.getD 0)).sum) ∧
      ((∀ p ∈ kv.2, 0 ≤ p.volume.getD 0) → 0 ≤ c.volume.getD 0) := by
  intro c hc
  obtain ⟨kv, hkv, hmk⟩ := (mem_createCandlesticks grouped c).mp hc
  obtain ⟨v0, rest, hsplit, _, _, _, _, _, hvol⟩ := makeCandle_fields kv.2 c hmk
  have hperm : ((sortByTimestamp kv.2).filter isValidPoint).Perm (kv.2.filter isValidPoint) :=
    (List.mergeSort_perm kv.2 _).filter isValidPoint
  rw [hsplit] at hperm
  refine ⟨kv, hkv, ?_, ?_⟩
  · rw [hvol, ((hperm.map (fun p => p.volume.getD 0)).sum_eq)]
  · intro hnn
    rw [hvol]
    simp only [Option.getD_some]
    apply List.sum_nonneg
    intro x hx
    rcases List.mem_map.mp hx with ⟨p, hp, rfl⟩
    have hp2 : p ∈ kv.2.filter isValidPoint := hperm.mem_iff.mp hp
    exact hnn p (List.mem_of_mem_filter hp2)

/-- Counterexample to C5 as stated: a single input point with volume `-5`
produces a candle whose volume is `-5`, negative — the code sums raw volumes
and never applies the claimed absolute-value clamp. -/
theorem createCandlesticks_volume_cex :
    (groupByDays [negVolPoint]).map (fun c => c.volume) = [some (-5)] ∧ (-5 : ℚ) < 0 := by
  constructor
  · norm_num [groupByDays, groupByKey, insertGrouped, createCandlesticks, makeCandle,
      sortByTimestamp, isValidPoint, maxOf, minOf, negVolPoint, List.mergeSort_singleton,
      List.mergeSort_nil]
  · norm_num

/-- Witness for the amended C5 at the same concrete bucket. -/
theorem createCandlesticks_volume_witness :
    negVolPoint ∈ createCandlesticks [((0 : ℤ), [negVolPoint])] ∧
      negVolPoint.volume =
        some ((([negVolPoint].filter isValidPoint).map (fun p => p.volume.getD 0)).sum) := by
  have hm : negVolPoint ∈ createCandlesticks [((0 : ℤ), [negVolPoint])] := by
    norm_num [createCandlesticks, makeCandle, sortByTimestamp, isValidPoint, maxOf, minOf,
      negVolPoint, List.mergeSort_singleton, List.mergeSort_nil]
  obtain ⟨kv, hkv, h1, _⟩ := createCandlesticks_volume _ negVolPoint hm
  have hkv2 : kv = ((0 : ℤ), [negVolPoint]) := by simpa using hkv
  subst hkv2
  exact ⟨hm, h1⟩

theorem le_maxOf_head (x : ℚ) (xs : List ℚ) : x ≤ maxOf x xs := by
  induction xs generalizing x with
  | nil => exact le_refl x
  | cons y ys ih => exact le_trans (le_max_left x y) (ih (max x y))

theorem le_maxOf_mem (x : ℚ) (xs : List ℚ) (y : ℚ) (h : y ∈ xs) : y ≤ maxOf x xs := by
  induction xs generalizing x with
  | nil => simp at h
  | cons z zs ih =>
    rcases List.mem_cons.mp h with rfl | h
    · exact le_trans (le_max_right x y) (le_maxOf_head (max x y) zs)
    · exact ih (max x z) h

theorem minOf_le_head (x : ℚ) (xs : List ℚ) : minOf x xs ≤ x := by
  induction xs generalizing x with
  | nil => exact le_refl x
  | cons y ys ih => exact le_trans (ih (min x y)) (min_le_left x y)

theorem minOf_le_mem (x : ℚ) (xs : List ℚ) (y : ℚ) (h : y ∈ xs) : minOf x xs ≤ y := by
  induction xs generalizing x with
  | nil => simp at h
  | cons z zs ih =>
    rcases List.mem_cons.mp h with rfl | h
    · exact le_trans (minOf_le_head (min x y) zs) (min_le_right x y)
    · exact ih (min x z) h

theorem mem_insertGrouped {α : Type} (k : ℤ) (p : α) (acc : List (ℤ × List α)) :
    ∀ kv ∈ insertGrouped k p acc, ∀ q ∈ kv.2, q = p ∨ ∃ kv2 ∈ acc, q ∈ kv2.2 := by
  induction acc with
  | nil =>
    intro kv hkv q hq
    simp only [insertGrouped, List.mem_singleton] at hkv
    subst hkv
    simp only [List.mem_singleton] at hq
    exact Or.inl hq
  | cons hd rest ih =>
    intro kv hkv q hq
    obtain ⟨k2, ps⟩ := hd
    rw [insertGrouped] at hkv
    split_ifs at hkv with he
    · rcases List.mem_cons.mp hkv with rfl | hkv
      · rcases List.mem_append.mp hq with hq | hq
        · exact Or.inr ⟨(k2, ps), List.mem_cons_self _ _, hq⟩
        · simp only [List.mem_singleton] at hq
          exact Or.inl hq
      · exact Or.inr ⟨kv, List.mem_cons_of_mem _ hkv, hq⟩
    · rcases List.mem_cons.mp hkv with rfl | hkv
      · exact Or.inr ⟨(k2, ps), List.mem_cons_self _ _, hq⟩
      · rcases ih kv hkv q hq with h | ⟨kv2, hkv2, hq2⟩
        · exact Or.inl h
        · exact Or.inr ⟨kv2, List.mem_cons_of_mem _ hkv2, hq2⟩

theorem foldl_grouping_subset {α : Type} (key : α → ℤ) :
    ∀ (data : List α) (acc : List (ℤ × List α)) (S : α → Prop),
      (∀ kv ∈ acc, ∀ q ∈ kv.2, S q) → (∀ q ∈ data, S q) →
      ∀ kv ∈ data.foldl (fun a p => insertGrouped (key p) p a) acc, ∀ q ∈ kv.2, S q := by
  intro data
  induction data with
  | nil => intro acc S hacc _ kv hkv q hq; exact hacc kv hkv q hq
  | cons p rest ih =>
    intro acc S hacc hdata kv hkv q hq
    rw [List.foldl_cons] at hkv
    refine ih (insertGrouped (key p) p acc) S ?_
      (fun q hq => hdata q (List.mem_cons_of_mem _ hq)) kv hkv q hq
    intro kv2 hkv2 q2 hq2
    rcases mem_insertGrouped (key p) p acc kv2 hkv2 q2 hq2 with rfl | ⟨kv3, hkv3, hq3⟩
    · exact hdata q2 (List.mem_cons_self _ _)
    · exact hacc kv3 hkv3 q2 hq3

theorem groupByKey_points_subset {α : Type} (key : α → ℤ) (data : List α) :
    ∀ kv ∈ groupByKey key data, ∀ q ∈ kv.2, q ∈ data := by
  unfold groupByKey
  exact foldl_grouping_subset key data [] (fun q => q ∈ data) (by simp) (fun q hq => hq)

/-- The OHLC invariant holds for every candle of `createCandlesticks` over any
grouping of a point collection whose valid points are internally consistent. -/
theorem createCandlesticks_ohlc_invariant (key : ChartDataPoint → ℤ)
    (data0 : List ChartDataPoint)
    (hvalid : ∀ p ∈ data0, isValidPoint p = true →
      p.low.getD 0 ≤ min (p.open_.getD 0) (p.close.getD 0) ∧
      max (p.open_.getD 0) (p.close.getD 0) ≤ p.high.getD 0) :
    ∀ c ∈ createCandlesticks (groupByKey key data0),
      c.low.getD 0 ≤ min (c.open_.getD 0) (c.close.getD 0) ∧
      max (c.open_.getD 0) (c.close.getD 0) ≤ c.high.getD 0 := by
  intro c hc
  obtain ⟨kv, hkv, hmk⟩ := (mem_createCandlesticks _ c).mp hc
  obtain ⟨v0, rest, hsplit, _, hopen, hhigh, hlow, hclose, _⟩ := makeCandle_fields kv.2 c hmk
  have hmemval : ∀ q ∈ v0 :: rest, isValidPoint q = true ∧ q ∈ data0 := by
    intro q hq
    rw [← hsplit] at hq
    obtain ⟨hq1, hq2⟩ := List.mem_filter.mp hq
    refine ⟨hq2, ?_⟩
    have hq3 : q ∈ kv.2 := ((List.mergeSort_perm kv.2 _).mem_iff).mp hq1
    exact groupByKey_points_subset key data0 kv hkv q hq3
  have hv0 := hmemval v0 (List.mem_cons_self _ _)
  have hv0i := hvalid v0 hv0.2 hv0.1
  have hvl := hmemval (rest.getLastD v0) (List.getLastD_mem_cons rest v0)
  have hvli := hvalid (rest.getLastD v0) hvl.2 hvl.1
  have hlow_le_v0 : c.low.getD 0 ≤ v0.low.getD 0 := by
    rw [hlow]
    exact minOf_le_head _ _
  have hlow_le_vl : c.low.getD 0 ≤ (rest.getLastD v0).low.getD 0 := by
    rw [hlow]
    rcases List.mem_cons.mp (List.getLastD_mem_cons rest v0) with heq | hml
    · rw [heq]
      exact minOf_le_head _ _
    · exact minOf_le_mem _ _ _ (List.mem_map_of_mem _ hml)
  have hh_ge_v0 : v0.high.getD 0 ≤ c.high.getD 0 := by
    rw [hhigh]
    exact le_maxOf_head _ _
  have hh_ge_vl : (rest.getLastD v0).high.getD 0 ≤ c.high.getD 0 := by
    rw [hhigh]
    rcases List.mem_cons.mp (List.getLastD_mem_cons rest v0) with heq | hml
    · rw [heq]
      exact le_maxOf_head _ _
    · exact le_maxOf_mem _ _ _ (List.mem_map_of_mem _ hml)
  rw [hopen, hclose]
  simp only [Option.getD_some]
  constructor
  · apply le_min
    · calc c.low.getD 0 ≤ v0.low.getD 0 := hlow_le_v0
        _ ≤ v0.open_.getD 0 := le_trans hv0i.1 (min_le_left _ _)
    · calc c.low.getD 0 ≤ (rest.getLastD v0).low.getD 0 := hlow_le_vl
        _ ≤ (rest.getLastD v0).close.getD 0 := le_trans hvli.1 (min_le_right _ _)
  · apply max_le
    · calc v0.open_.getD 0 ≤ v0.high.getD 0 := le_trans (le_max_left _ _) hv0i.2
        _ ≤ c.high.getD 0 := hh_ge_v0
    · calc (rest.getLastD v0).close.getD 0 ≤ (rest.getLastD v0).high.getD 0 :=
          le_trans (le_max_right _ _) hvli.2
        _ ≤ c.high.getD 0 := hh_ge_vl

/-- C6 (amended): every candle emitted for any timeframe satisfies
`low <= min(open, close)` and `high >= max(open, close)`, provided each valid
input point itself satisfies that invariant (malformed-but-complete points can
violate it, see the counterexample). -/
theorem groupDataByTimeframe_ohlc_invariant (data : List ChartDataPoint) (tf : Timeframe)
    (hvalid : ∀ p ∈ data, isValidPoint p = true →
      p.low.getD 0 ≤ min (p.open_.getD 0) (p.close.getD 0) ∧
      max (p.open_.getD 0) (p.close.getD 0) ≤ p.high.getD 0) :
    ∀ c ∈ groupDataByTimeframe data tf,
      c.low.getD 0 ≤ min (c.open_.getD 0) (c.close.getD 0) ∧
      max (c.open_.getD 0) (c.close.getD 0) ≤ c.high.getD 0 := by
  intro c hc
  have hvalid2 : ∀ p ∈ sortByTimestamp data, isValidPoint p = true →
      p.low.getD 0 ≤ min (p.open_.getD 0) (p.close.getD 0) ∧
      max (p.open_.getD 0) (p.close.getD 0) ≤ p.high.getD 0 := by
    intro p hp
    exact hvalid p ((List.mergeSort_perm data _).mem_iff.mp hp)
  unfold groupDataByTimeframe at hc
  split_ifs at hc with hemp
  · simp at hc
  · cases tf <;> simp only at hc
    · exact createCandlesticks_ohlc_invariant _ _ hvalid2 c hc
    · exact createCandlesticks_ohlc_invariant _ _ hvalid2 c hc
    · exact createCandlesticks_ohlc_invariant _ _ hvalid2 c hc

/-- Counterexample to C6 as stated (over arbitrary inputs): a complete but
inconsistent input point (high `5` below open `10`) is aggregated verbatim, so
the emitted candle violates both halves of the invariant. -/
theorem groupDataByTimeframe_ohlc_invariant_cex :
    (groupDataByTimeframe [badPoint] Timeframe.d1).map
        (fun c => (c.open_, c.high, c.low, c.close)) =
      [(some 10, some 5, some 7, some 6)] ∧
    ¬ ((7 : ℚ) ≤ min 10 6 ∧ max (10 : ℚ) 6 ≤ 5) := by
  constructor
  · norm_num [groupDataByTimeframe, groupByDays, groupByKey, insertGrouped,
      createCandlesticks, makeCandle, sortByTimestamp, isValidPoint, maxOf, minOf,
      badPoint, List.mergeSort_singleton, List.mergeSort_nil]
  · norm_num

/-- Witness for the amended C6: the three-point intraday scenario of the spec,
whose points all satisfy the per-point invariant; the resulting day candle
`{open 10, high 13, low 9, close 11.5}` satisfies the invariant. -/
theorem groupDataByTimeframe_ohlc_invariant_witness :
    ((groupDataByTimeframe
      [{ timestamp := 0, price := 11, volume := some 100, open_ := some 10,
         high := some 12, low := some 9, close := some 11 },
       { timestamp := 1, price := 12, volume := some 150, open_ := some 11,
         high := some 13, low := some 10, close := some 12 },
       { timestamp := 2, price := 11.5, volume := some 50, open_ := some 12,
         high := some 12, low := some 11, close := some 11.5 }] Timeframe.d1).all
      (fun c => decide (c.low.getD 0 ≤ min (c.open_.getD 0) (c.close.getD 0) ∧
        max (c.open_.getD 0) (c.close.getD 0) ≤ c.high.getD 0))) = true := by
  rw [List.all_eq_true]
  intro c hc
  rw [decide_eq_true_eq]
  refine groupDataByTimeframe_ohlc_invariant _ _ ?_ c hc
  intro p hp _
  simp only [List.mem_cons, List.not_mem_nil, or_false] at hp
  rcases hp with rfl | rfl | rfl <;> norm_num

/-- C9: on a non-expired cached series, `refreshCacheWithLatest` with fully
overlapping fresh timestamps returns `false` and leaves the stored entry (all
fields, `lastUpdated` included) unchanged; with at least one new timestamp it
returns `true` and stores a merged series sorted ascending by timestamp with no
duplicate timestamps (series and fetch batch carry unique timestamps). -/
theorem refreshCacheWithLatest_spec (now : ℤ) (cd : CachedStockData)
    (latest : List ChartDataPoint) (sym : String)
    (hfresh : now - cd.lastUpdated ≤ CACHE_EXPIRY)
    (hnodupc : (cd.data.map (fun p => p.timestamp)).Nodup)
    (hnodupl : (latest.map (fun p => p.timestamp)).Nodup) :
    ((∀ p ∈ latest, ∃ q ∈ cd.data, q.timestamp = p.timestamp) →
      refreshCacheWithLatest now (some cd) latest sym = (false, some cd))
    ∧ ((∃ p ∈ latest, ∀ q ∈ cd.data, q.timestamp ≠ p.timestamp) →
      (refreshCacheWithLatest now (some cd) latest sym).1 = true ∧
      ∃ d2, (refreshCacheWithLatest now (some cd) latest sym).2 = some d2 ∧
        d2.data.Pairwise (fun a b => a.timestamp ≤ b.timestamp) ∧
        (d2.data.map (fun p => p.timestamp)).Nodup) := by
  have hread : getCachedData now (some cd) = (some cd, some cd) := by
    unfold getCachedData
    dsimp only
    rw [if_neg (by omega)]
  constructor
  · intro hover
    have hta : latest.filter
        (fun d => ! cd.data.any (fun e => e.timestamp == d.timestamp)) = [] := by
      rw [List.filter_eq_nil_iff]
      intro p hp
      obtain ⟨q, hq, hqt⟩ := hover p hp
      have hany : cd.data.any (fun e => e.timestamp == p.timestamp) = true :=
        List.any_eq_true.mpr ⟨q, hq, beq_iff_eq.mpr hqt⟩
      simp [hany]
    unfold refreshCacheWithLatest
    rw [hread]
    dsimp only
    split_ifs with h1 h2
    · rfl
    · rfl
    · exfalso
      rw [hta] at h2
      simp at h2
  · rintro ⟨p, hp, hnew⟩
    have hle : latest.isEmpty = false := by
      rcases latest with _ | _
      · simp at hp
      · rfl
    have hpta : p ∈ latest.filter
        (fun d => ! cd.data.any (fun e => e.timestamp == d.timestamp)) := by
      rw [List.mem_filter]
      refine ⟨hp, ?_⟩
      simp only [Bool.not_eq_true', List.any_eq_false]
      intro e he
      simp only [beq_iff_eq]
      exact hnew e he
    have hta : (latest.filter
        (fun d => ! cd.data.any (fun e => e.timestamp == d.timestamp))).isEmpty = false := by
      rcases hx : latest.filter
          (fun d => ! cd.data.any (fun e => e.timestamp == d.timestamp)) with _ | _
      · rw [hx] at hpta; simp at hpta
      · rw [hx]; rfl
    unfold refreshCacheWithLatest
    rw [hread]
    dsimp only
    split_ifs with h1 h2
    · exact absurd h1 (by rw [hle]; simp)
    · exact absurd h2 (by rw [hta]; simp)
    constructor
    · rfl
    refine ⟨_, rfl, ?_, ?_⟩
    · have hs : (sortByTimestamp (cd.data ++ latest.filter
          (fun d => ! cd.data.any (fun e => e.timestamp == d.timestamp)))).Pairwise
          (fun a b => (decide (a.timestamp ≤ b.timestamp)) = true) := by
        apply List.sorted_mergeSort
        · intro a b c hab hbc
          simp only [decide_eq_true_eq] at hab hbc ⊢
          omega
        · intro a b
          simp only [Bool.or_eq_true, decide_eq_true_eq]
          omega
      exact hs.imp (fun h => by simpa using h)
    · have hperm : ((sortByTimestamp (cd.data ++ latest.filter
          (fun d => ! cd.data.any (fun e => e.timestamp == d.timestamp)))).map
            (fun p => p.timestamp)).Perm
          ((cd.data ++ latest.filter
            (fun d => ! cd.data.any (fun e => e.timestamp == d.timestamp))).map
            (fun p => p.timestamp)) :=
        (List.mergeSort_perm _ _).map _
      rw [hperm.nodup_iff, List.map_append, List.nodup_append]
      refine ⟨hnodupc, ?_, ?_⟩
      · exact ((List.filter_sublist latest).map _).nodup hnodupl
      · intro t htc htf
        rcases List.mem_map.mp htc with ⟨e, he, rfl⟩
        rcases List.mem_map.mp htf with ⟨q, hq, hqt⟩
        obtain ⟨hql, hqp⟩ := List.mem_filter.mp hq
        simp only [Bool.not_eq_true', List.any_eq_false] at hqp
        have := hqp e he
        simp only [beq_iff_eq] at this
        exact this hqt.symm

/-- Witness for C9: a one-point series, first refreshed with the same timestamp
(no change), then with a new timestamp (updated). -/
theorem refreshCacheWithLatest_spec_witness :
    (refreshCacheWithLatest 1000
        (some { symbol := "A", data := [negVolPoint], lastUpdated := 0, dataRange := 0 })
        [negVolPoint] "A" =
      (false, some { symbol := "A", data := [negVolPoint], lastUpdated := 0, dataRange := 0 }))
    ∧ (refreshCacheWithLatest 1000
        (some { symbol := "A", data := [negVolPoint], lastUpdated := 0, dataRange := 0 })
        [{ timestamp := 5, price := 1 }] "A").1 = true := by
  constructor
  · exact (refreshCacheWithLatest_spec 1000
      { symbol := "A", data := [negVolPoint], lastUpdated := 0, dataRange := 0 }
      [negVolPoint] "A" (by norm_num [CACHE_EXPIRY]) (by simp) (by simp)).1
      (by intro p hp; exact ⟨p, hp, rfl⟩)
  · exact ((refreshCacheWithLatest_spec 1000
      { symbol := "A", data := [negVolPoint], lastUpdated := 0, dataRange := 0 }
      [{ timestamp := 5, price := 1 }] "A" (by norm_num [CACHE_EXPIRY]) (by simp) (by simp)).2
      ⟨{ timestamp := 5, price := 1 }, by simp, by
        intro q hq
        simp only [List.mem_singleton] at hq
        subst hq
        norm_num [negVolPoint]⟩).1

/-! ## Characterization of the grouping map -/

theorem insertGrouped_keys {α : Type} (k : ℤ) (p : α) (acc : List (ℤ × List α)) :
    (insertGrouped k p acc).map Prod.fst =
      if k ∈ acc.map Prod.fst then acc.map Prod.fst else acc.map Prod.fst ++ [k] := by
  induction acc with
  | nil => simp [insertGrouped]
  | cons hd rest ih =>
    obtain ⟨k2, ps⟩ := hd
    by_cases he : k2 = k
    · subst he
      rw [insertGrouped, if_pos rfl]
      simp
    · rw [insertGrouped, if_neg he]
      simp only [List.map_cons]
      by_cases h2 : k ∈ rest.map Prod.fst
      · rw [ih, if_pos h2, if_pos (by simp only [List.map_cons, List.mem_cons]; exact Or.inr h2)]
      · rw [ih, if_neg h2, if_neg ?hn]
        · simp
        case hn =>
          simp only [List.map_cons, List.mem_cons]
          rintro (rfl | h3)
          · exact he rfl
          · exact h2 h3

theorem insertGrouped_char {α : Type} (key : α → ℤ) (p : α) (done : List α) :
    ∀ (acc : List (ℤ × List α)),
      (∀ kv ∈ acc, kv.2 = done.filter (fun q => key q = kv.1)) →
      ((∀ kv ∈ acc, kv.1 ≠ key p) → done.filter (fun q => key q = key p) = []) →
      ((acc.map Prod.fst).Nodup) →
      ∀ kv ∈ insertGrouped (key p) p acc,
        kv.2 = (done ++ [p]).filter (fun q => key q = kv.1) := by
  intro acc
  induction acc with
  | nil =>
    intro _ hfresh _ kv hkv
    simp only [insertGrouped, List.mem_singleton] at hkv
    subst hkv
    simp only [List.filter_append]
    rw [hfresh (by simp)]
    simp
  | cons hd rest ih =>
    intro hchar hfresh hnod kv hkv
    obtain ⟨k2, ps⟩ := hd
    rw [insertGrouped] at hkv
    by_cases he : k2 = key p
    · rw [if_pos he] at hkv
      rcases List.mem_cons.mp hkv with rfl | hkv
      · simp only
        have h1 := hchar (k2, ps) (List.mem_cons_self _ _)
        simp only at h1
        rw [List.filter_append, ← h1]
        have h2 : ([p].filter (fun q => decide (key q = k2))) = [p] := by
          simp only [List.filter_cons, List.filter_nil, decide_eq_true_eq]
          rw [if_pos he.symm]
        rw [h2]
      · have h1 := hchar kv (List.mem_cons_of_mem _ hkv)
        have hne : kv.1 ≠ key p := by
          intro heq
          have hmem : kv.1 ∈ rest.map Prod.fst := List.mem_map_of_mem Prod.fst hkv
          have hnod2 : k2 ∉ rest.map Prod.fst := by
            simp only [List.map_cons, List.nodup_cons] at hnod
            exact hnod.1
          rw [heq, ← he] at hmem
          exact hnod2 hmem
        rw [h1, List.filter_append]
        have h2 : ([p].filter (fun q => decide (key q = kv.1))) = [] := by
          simp only [List.filter_cons, List.filter_nil, decide_eq_true_eq]
          rw [if_neg (fun h => hne h.symm)]
        rw [h2, List.append_nil]
    · rw [if_neg he] at hkv
      rcases List.mem_cons.mp hkv with rfl | hkv
      · simp only
        have h1 := hchar (k2, ps) (List.mem_cons_self _ _)
        simp only at h1
        rw [h1, List.filter_append]
        have h2 : ([p].filter (fun q => decide (key q = k2))) = [] := by
          simp only [List.filter_cons, List.filter_nil, decide_eq_true_eq]
          rw [if_neg (fun h => he h.symm)]
        rw [h2, List.append_nil]
      · refine ih (fun kv2 hkv2 => hchar kv2 (List.mem_cons_of_mem _ hkv2)) ?_ ?_ kv hkv
        · intro hall
          apply hfresh
          intro kv2 hkv2
          rcases List.mem_cons.mp hkv2 with rfl | hkv2
          · exact he
          · exact hall kv2 hkv2
        · simp only [List.map_cons, List.nodup_cons] at hnod
          exact hnod.2

theorem groupByKey_foldl_spec {α : Type} (key : α → ℤ) :
    ∀ (rem : List α) (done : List α) (acc : List (ℤ × List α)),
      ((acc.map Prod.fst).Nodup) →
      (∀ kv ∈ acc, kv.2 = done.filter (fun q => key q = kv.1)) →
      (∀ k, (k ∈ acc.map Prod.fst) ↔ ∃ q ∈ done, key q = k) →
      ((rem.foldl (fun a p => insertGrouped (key p) p a) acc).map Prod.fst).Nodup ∧
      (∀ kv ∈ rem.foldl (fun a p => insertGrouped (key p) p a) acc,
        kv.2 = (done ++ rem).filter (fun q => key q = kv.1)) ∧
      (∀ k, (k ∈ (rem.foldl (fun a p => insertGrouped (key p) p a) acc).map Prod.fst) ↔
        ∃ q ∈ done ++ rem, key q = k) := by
  intro rem
  induction rem with
  | nil =>
    intro done acc hnod hchar hkeys
    simp only [List.foldl_nil, List.append_nil]
    exact ⟨hnod, hchar, hkeys⟩
  | cons p rem2 ih =>
    intro done acc hnod hchar hkeys
    rw [List.foldl_cons]
    have hfresh : (∀ kv ∈ acc, kv.1 ≠ key p) →
        done.filter (fun q => key q = key p) = [] := by
      intro hall
      rw [List.filter_eq_nil_iff]
      intro q hq hk
      simp only [decide_eq_true_eq] at hk
      have : key p ∈ acc.map Prod.fst := (hkeys (key p)).mpr ⟨q, hq, hk⟩
      rcases List.mem_map.mp this with ⟨kv, hkv, hkv1⟩
      exact hall kv hkv hkv1
    have hnod2 : ((insertGrouped (key p) p acc).map Prod.fst).Nodup := by
      rw [insertGrouped_keys]
      split_ifs with hmem
      · exact hnod
      · simp only [List.nodup_append, List.nodup_cons, List.not_mem_nil, not_false_iff,
          List.nodup_nil, and_true, true_and]
        constructor
        · exact hnod
        · intro a ha hb
          simp only [List.mem_singleton] at hb
          subst hb
          exact hmem ha
    have hchar2 : ∀ kv ∈ insertGrouped (key p) p acc,
        kv.2 = (done ++ [p]).filter (fun q => key q = kv.1) :=
      insertGrouped_char key p done acc hchar hfresh hnod
    have hkeys2 : ∀ k, (k ∈ (insertGrouped (key p) p acc).map Prod.fst) ↔
        ∃ q ∈ done ++ [p], key q = k := by
      intro k
      rw [insertGrouped_keys]
      constructor
      · intro hk
        split_ifs at hk with hmem
        · rcases (hkeys k).mp hk with ⟨q, hq, hqk⟩
          exact ⟨q, List.mem_append_left _ hq, hqk⟩
        · rcases List.mem_append.mp hk with hk | hk
          · rcases (hkeys k).mp hk with ⟨q, hq, hqk⟩
            exact ⟨q, List.mem_append_left _ hq, hqk⟩
          · simp only [List.mem_singleton] at hk
            subst hk
            exact ⟨p, List.mem_append_right _ (List.mem_singleton.mpr rfl), rfl⟩
      · rintro ⟨q, hq, hqk⟩
        rcases List.mem_append.mp hq with hq | hq
        · have hin : k ∈ acc.map Prod.fst := (hkeys k).mpr ⟨q, hq, hqk⟩
          split_ifs with hmem
          · exact hin
          · exact List.mem_append_left _ hin
        · simp only [List.mem_singleton] at hq
          subst hq
          subst hqk
          split_ifs with hmem
          · exact hmem
          · exact List.mem_append_right _ (List.mem_singleton.mpr rfl)
    have := ih (done ++ [p]) (insertGrouped (key p) p acc) hnod2 hchar2 hkeys2
    rw [List.append_assoc, List.singleton_append] at this
    exact this

theorem groupByKey_keys_nodup {α : Type} (key : α → ℤ) (data : List α) :
    ((groupByKey key data).map Prod.fst).Nodup :=
  (groupByKey_foldl_spec key data [] [] (by simp) (by simp) (by simp)).1

theorem groupByKey_bucket {α : Type} (key : α → ℤ) (data : List α) :
    ∀ kv ∈ groupByKey key data, kv.2 = data.filter (fun q => key q = kv.1) := by
  have h := (groupByKey_foldl_spec key data [] [] (by simp) (by simp) (by simp)).2.1
  simpa using h

theorem groupByKey_keys_iff {α : Type} (key : α → ℤ) (data : List α) :
    ∀ k, (k ∈ (groupByKey key data).map Prod.fst) ↔ ∃ q ∈ data, key q = k := by
  have h := (groupByKey_foldl_spec key data [] [] (by simp) (by simp) (by simp)).2.2
  simpa using h

theorem maxOf_mem (x : ℚ) (xs : List ℚ) : maxOf x xs ∈ x :: xs := by
  induction xs generalizing x with
  | nil => simp [maxOf]
  | cons y ys ih =>
    have ih2 := ih (max x y)
    rcases List.mem_cons.mp ih2 with h | h
    · rcases max_choice x y with hm | hm
      · rw [show maxOf x (y :: ys) = maxOf (max x y) ys from rfl, h, hm]
        exact List.mem_cons_self _ _
      · rw [show maxOf x (y :: ys) = maxOf (max x y) ys from rfl, h, hm]
        exact List.mem_cons_of_mem _ (List.mem_cons_self _ _)
    · exact List.mem_cons_of_mem _ (List.mem_cons_of_mem _ h)

theorem minOf_mem (x : ℚ) (xs : List ℚ) : minOf x xs ∈ x :: xs := by
  induction xs generalizing x with
  | nil => simp [minOf]
  | cons y ys ih =>
    have ih2 := ih (min x y)
    rcases List.mem_cons.mp ih2 with h | h
    · rcases min_choice x y with hm | hm
      · rw [show minOf x (y :: ys) = minOf (min x y) ys from rfl, h, hm]
        exact List.mem_cons_self _ _
      · rw [show minOf x (y :: ys) = minOf (min x y) ys from rfl, h, hm]
        exact List.mem_cons_of_mem _ (List.mem_cons_self _ _)
    · exact List.mem_cons_of_mem _ (List.mem_cons_of_mem _ h)

theorem isMaxOf_maxOf (x : ℚ) (xs : List ℚ) : IsMaxOf (maxOf x xs) (x :: xs) := by
  refine ⟨maxOf_mem x xs, ?_⟩
  intro y hy
  rcases List.mem_cons.mp hy with rfl | hy
  · exact le_maxOf_head _ _
  · exact le_maxOf_mem _ _ _ hy

theorem isMinOf_minOf (x : ℚ) (xs : List ℚ) : IsMinOf (minOf x xs) (x :: xs) := by
  refine ⟨minOf_mem x xs, ?_⟩
  intro y hy
  rcases List.mem_cons.mp hy with rfl | hy
  · exact minOf_le_head _ _
  · exact minOf_le_mem _ _ _ hy

theorem isMaxOf_unique {H H2 : ℚ} {l : List ℚ} (h1 : IsMaxOf H l) (h2 : IsMaxOf H2 l) :
    H = H2 :=
  le_antisymm (h2.2 H h1.1) (h1.2 H2 h2.1)

theorem isMinOf_unique {L L2 : ℚ} {l : List ℚ} (h1 : IsMinOf L l) (h2 : IsMinOf L2 l) :
    L = L2 :=
  le_antisymm (h1.2 L2 h2.1) (h2.2 L h1.1)

theorem isMaxOf_perm {H : ℚ} {l l2 : List ℚ} (hp : l.Perm l2) (h : IsMaxOf H l) :
    IsMaxOf H l2 :=
  ⟨hp.mem_iff.mp h.1, fun y hy => h.2 y (hp.mem_iff.mpr hy)⟩

theorem isMinOf_perm {L : ℚ} {l l2 : List ℚ} (hp : l.Perm l2) (h : IsMinOf L l) :
    IsMinOf L l2 :=
  ⟨hp.mem_iff.mp h.1, fun y hy => h.2 y (hp.mem_iff.mpr hy)⟩

/-- The valid sublist that `makeCandle` aggregates is a permutation of the
unsorted valid sublist. -/
theorem makeCandle_valid_perm (bs : List ChartDataPoint) :
    ((sortByTimestamp bs).filter isValidPoint).Perm (bs.filter isValidPoint) :=
  (List.mergeSort_perm bs _).filter isValidPoint

/-- Full characterization of a produced candle in terms of the (unsorted) valid
sublist of its bucket: its high is the maximum, its low the minimum, its volume
the sum, its timestamp comes from a valid bucket point, and the candle itself
is a valid point. -/
theorem makeCandle_char (bs : List ChartDataPoint) (c : ChartDataPoint)
    (h : makeCandle bs = some c) :
    IsMaxOf (c.high.getD 0) ((bs.filter isValidPoint).map (fun p => p.high.getD 0)) ∧
    IsMinOf (c.low.getD 0) ((bs.filter isValidPoint).map (fun p => p.low.getD 0)) ∧
    c.volume = some (((bs.filter isValidPoint).map (fun p => p.volume.getD 0)).sum) ∧
    c.high = some (c.high.getD 0) ∧ c.low = some (c.low.getD 0) ∧
    (∃ q ∈ bs, isValidPoint q = true ∧ c.timestamp = q.timestamp) ∧
    isValidPoint c = true := by
  obtain ⟨v0, rest, hsplit, hts, hopen, hhigh, hlow, hclose, hvol⟩ := makeCandle_fields bs c h
  have hperm : (v0 :: rest).Perm (bs.filter isValidPoint) := by
    rw [← hsplit]
    exact makeCandle_valid_perm bs
  have hv0 : v0 ∈ bs.filter isValidPoint := hperm.mem_iff.mp (List.mem_cons_self _ _)
  refine ⟨?_, ?_, ?_, ?_, ?_, ?_, ?_⟩
  · have h1 : IsMaxOf (c.high.getD 0) ((v0 :: rest).map (fun p => p.high.getD 0)) := by
      rw [hhigh]
      simp only [Option.getD_some, List.map_cons]
      exact isMaxOf_maxOf _ _
    exact isMaxOf_perm (hperm.map _) h1
  · have h1 : IsMinOf (c.low.getD 0) ((v0 :: rest).map (fun p => p.low.getD 0)) := by
      rw [hlow]
      simp only [Option.getD_some, List.map_cons]
      exact isMinOf_minOf _ _
    exact isMinOf_perm (hperm.map _) h1
  · rw [hvol, ((hperm.map (fun p => p.volume.getD 0)).sum_eq)]
  · rw [hhigh]; simp
  · rw [hlow]; simp
  · obtain ⟨hv1, hv2⟩ := List.mem_filter.mp hv0
    exact ⟨v0, hv1, hv2, hts⟩
  · unfold isValidPoint
    rw [hopen, hhigh, hlow, hclose, hvol]
    rfl

/-- A bucket yields no candle exactly when it has no valid point. -/
theorem makeCandle_eq_none_iff (bs : List ChartDataPoint) :
    makeCandle bs = none ↔ ∀ q ∈ bs, ¬ isValidPoint q = true := by
  unfold makeCandle
  rcases hs : (sortByTimestamp bs).filter isValidPoint with _ | ⟨v0, rest⟩ <;> dsimp only
  · constructor
    · intro _ q hq hvq
      have hq2 : q ∈ (sortByTimestamp bs).filter isValidPoint :=
        List.mem_filter.mpr ⟨(List.mergeSort_perm bs _).mem_iff.mpr hq, hvq⟩
      rw [hs] at hq2
      simp at hq2
    · intro _
      rfl
  · have hv0 : v0 ∈ (sortByTimestamp bs).filter isValidPoint := by
      rw [hs]; exact List.mem_cons_self _ _
    obtain ⟨hv1, hv2⟩ := List.mem_filter.mp hv0
    constructor
    · intro h
      cases h
    · intro hall
      exact absurd hv2 (hall v0 ((List.mergeSort_perm bs _).mem_iff.mp hv1))

/-- The (high, low, volume) projection of `makeCandle` is invariant under
permutation of the bucket. -/
theorem makeCandle_hlv_perm (bs bs2 : List ChartDataPoint) (hp : bs.Perm bs2) :
    (makeCandle bs).map (fun c => (c.high, c.low, c.volume)) =
    (makeCandle bs2).map (fun c => (c.high, c.low, c.volume)) := by
  rcases h1 : makeCandle bs with _ | c1 <;> rcases h2 : makeCandle bs2 with _ | c2
  · rfl
  · exfalso
    have hn := (makeCandle_eq_none_iff bs).mp h1
    obtain ⟨_, _, _, _, _, ⟨q, hq, hvq, _⟩, _⟩ := makeCandle_char bs2 c2 h2
    exact hn q (hp.mem_iff.mpr hq) hvq
  · exfalso
    have hn := (makeCandle_eq_none_iff bs2).mp h2
    obtain ⟨_, _, _, _, _, ⟨q, hq, hvq, _⟩, _⟩ := makeCandle_char bs c1 h1
    exact hn q (hp.mem_iff.mp hq) hvq
  · obtain ⟨hmax1, hmin1, hvol1, hh1, hl1, _, _⟩ := makeCandle_char bs c1 h1
    obtain ⟨hmax2, hmin2, hvol2, hh2, hl2, _, _⟩ := makeCandle_char bs2 c2 h2
    have hfp : (bs.filter isValidPoint).Perm (bs2.filter isValidPoint) :=
      hp.filter isValidPoint
    simp only [Option.map_some']
    congr 1
    have hhigh : c1.high = c2.high := by
      rw [hh1, hh2, isMaxOf_unique (isMaxOf_perm (hfp.map _) hmax1) hmax2]
    have hlow : c1.low = c2.low := by
      rw [hl1, hl2, isMinOf_unique (isMinOf_perm (hfp.map _) hmin1) hmin2]
    have hvol : c1.volume = c2.volume := by
      rw [hvol1, hvol2, (hfp.map (fun p => p.volume.getD 0)).sum_eq]
    rw [hhigh, hlow, hvol]

theorem find?_eq_some_of_unique {α : Type} (l : List α) (p : α → Bool) (c : α)
    (hc : c ∈ l) (hpc : p c = true) (huniq : ∀ x ∈ l, p x = true → x = c) :
    l.find? p = some c := by
  induction l with
  | nil => simp at hc
  | cons a t ih =>
    by_cases hpa : p a = true
    · rw [List.find?_cons_of_pos _ hpa, huniq a (List.mem_cons_self _ _) hpa]
    · rw [List.find?_cons_of_neg _ (by simp [hpa])]
      rcases List.mem_cons.mp hc with rfl | hc2
      · exact absurd hpc hpa
      · exact ih hc2 (fun x hx hpx => huniq x (List.mem_cons_of_mem _ hx) hpx)

/-- Every candle's bucket-key equals the key of its own timestamp, and the
candle is recovered by aggregating the key's fiber directly. -/
theorem createCandlesticks_self_key (g : ℤ → ℤ) (S : List ChartDataPoint) :
    ∀ c ∈ createCandlesticks (groupByKey (fun p => g p.timestamp) S),
      makeCandle (S.filter (fun q => decide (g q.timestamp = g c.timestamp))) = some c := by
  intro c hc
  obtain ⟨kv, hkv, hmk⟩ := (mem_createCandlesticks _ c).mp hc
  have hbucket := groupByKey_bucket _ S kv hkv
  obtain ⟨_, _, _, _, _, ⟨q, hq, hvq, hts⟩, _⟩ := makeCandle_char kv.2 c hmk
  rw [hbucket] at hq
  obtain ⟨hq1, hq2⟩ := List.mem_filter.mp hq
  simp only [decide_eq_true_eq] at hq2
  rw [hbucket] at hmk
  rw [hts, hq2]
  exact hmk

/-- The candle that the grouped-and-aggregated pipeline produces for bucket `k`
is exactly `makeCandle` of the `k`-fiber of the input. -/
theorem find_candle (g : ℤ → ℤ) (S : List ChartDataPoint) (k : ℤ) :
    (createCandlesticks (groupByKey (fun p => g p.timestamp) S)).find?
      (fun c => decide (g c.timestamp = k)) =
    makeCandle (S.filter (fun q => decide (g q.timestamp = k))) := by
  rcases hB : makeCandle (S.filter (fun q => decide (g q.timestamp = k))) with _ | cB
  · rw [List.find?_eq_none]
    intro c hc hck
    simp only [decide_eq_true_eq] at hck
    have hself := createCandlesticks_self_key g S c hc
    rw [hck, hB] at hself
    cases hself
  · apply find?_eq_some_of_unique
    · obtain ⟨_, _, _, _, _, ⟨q, hq, hvq, _⟩, _⟩ := makeCandle_char _ cB hB
      obtain ⟨hq1, hq2⟩ := List.mem_filter.mp hq
      simp only [decide_eq_true_eq] at hq2
      have hkmem : k ∈ (groupByKey (fun p => g p.timestamp) S).map Prod.fst :=
        (groupByKey_keys_iff _ S k).mpr ⟨q, hq1, hq2⟩
      rcases List.mem_map.mp hkmem with ⟨kv, hkv, hkv1⟩
      have hbucket := groupByKey_bucket _ S kv hkv
      rw [mem_createCandlesticks]
      refine ⟨kv, hkv, ?_⟩
      rw [hbucket, hkv1]
      exact hB
    · obtain ⟨_, _, _, _, _, ⟨q, hq, hvq, hts⟩, _⟩ := makeCandle_char _ cB hB
      obtain ⟨_, hq2⟩ := List.mem_filter.mp hq
      simp only [decide_eq_true_eq] at hq2
      simp [hts, hq2]
    · intro x hx hxk
      simp only [decide_eq_true_eq] at hxk
      have hself := createCandlesticks_self_key g S x hx
      rw [hxk, hB] at hself
      injection hself with h
      exact h.symm

theorem sum_filter_or {α : Type} (f : α → ℚ) (p r : α → Bool) (S : List α)
    (hdisj : ∀ q ∈ S, ¬(p q = true ∧ r q = true)) :
    ((S.filter (fun q => p q || r q)).map f).sum =
      ((S.filter p).map f).sum + ((S.filter r).map f).sum := by
  induction S with
  | nil => simp
  | cons a t ih =>
    have ih2 := ih (fun q hq => hdisj q (List.mem_cons_of_mem _ hq))
    by_cases hpa : p a = true <;> by_cases hra : r a = true
    · exact absurd ⟨hpa, hra⟩ (hdisj a (List.mem_cons_self _ _))
    · rw [List.filter_cons_of_pos (by simp [hpa]), List.filter_cons_of_pos hpa,
        List.filter_cons_of_neg (by simp [hra])]
      simp only [List.map_cons, List.sum_cons, ih2]
      ring
    · rw [List.filter_cons_of_pos (by simp [hra]), List.filter_cons_of_neg (by simp [hpa]),
        List.filter_cons_of_pos hra]
      simp only [List.map_cons, List.sum_cons, ih2]
      ring
    · rw [List.filter_cons_of_neg (by simp [hpa, hra]), List.filter_cons_of_neg (by simp [hpa]),
        List.filter_cons_of_neg (by simp [hra])]
      exact ih2

theorem sum_filter_partition (f : ChartDataPoint → ℚ) (key : ChartDataPoint → ℤ)
    (SV : List ChartDataPoint) :
    ∀ ds : List ℤ, ds.Nodup →
      (ds.map (fun d => ((SV.filter (fun q => decide (key q = d))).map f).sum)).sum =
      ((SV.filter (fun q => decide (key q ∈ ds))).map f).sum := by
  intro ds
  induction ds with
  | nil =>
    intro _
    simp
  | cons d ds2 ih =>
    intro hnod
    obtain ⟨hd, hnod2⟩ := List.nodup_cons.mp hnod
    have hcong : SV.filter (fun q => decide (key q ∈ d :: ds2)) =
        SV.filter (fun q => decide (key q = d) || decide (key q ∈ ds2)) := by
      apply List.filter_congr
      intro q _
      rw [decide_eq_decide.mpr List.mem_cons, Bool.decide_or]
    rw [List.map_cons, List.sum_cons, ih hnod2, hcong,
      sum_filter_or f _ _ SV ?_]
    intro q hq ⟨h1, h2⟩
    simp only [decide_eq_true_eq] at h1 h2
    rw [h1] at h2
    exact hd h2

theorem flat_candles_keys (g : ℤ → ℤ) :
    ∀ (grouped : List (ℤ × List ChartDataPoint)),
      (grouped.map Prod.fst).Nodup →
      (∀ kv ∈ grouped, ∀ c, makeCandle kv.2 = some c → g c.timestamp = kv.1) →
      ((grouped.flatMap (fun kv => (makeCandle kv.2).toList)).map
        (fun c => g c.timestamp)).Nodup ∧
      (∀ y ∈ (grouped.flatMap (fun kv => (makeCandle kv.2).toList)).map
        (fun c => g c.timestamp), y ∈ grouped.map Prod.fst) := by
  intro grouped
  induction grouped with
  | nil => simp
  | cons kv rest ih =>
    intro hnod hkeys
    rw [List.map_cons, List.nodup_cons] at hnod
    obtain ⟨hk1, hk2⟩ := hnod
    obtain ⟨ihn, ihs⟩ := ih hk2 (fun kv2 h2 => hkeys kv2 (List.mem_cons_of_mem _ h2))
    rw [List.flatMap_cons]
    rcases hm : makeCandle kv.2 with _ | c
    · simp only [Option.toList_none, List.nil_append]
      exact ⟨ihn, fun y hy => List.mem_cons_of_mem _ (ihs y hy)⟩
    · simp only [Option.toList_some, List.singleton_append, List.map_cons]
      have hgc : g c.timestamp = kv.1 := hkeys kv (List.mem_cons_self _ _) c hm
      constructor
      · rw [List.nodup_cons]
        constructor
        · intro hmem
          have := ihs _ hmem
          rw [hgc] at this
          exact hk1 this
        · exact ihn
      · intro y hy
        rcases List.mem_cons.mp hy with rfl | hy
        · rw [hgc]
          exact List.mem_cons_self _ _
        · exact List.mem_cons_of_mem _ (ihs y hy)

theorem createCandlesticks_keys_nodup (g : ℤ → ℤ) (S : List ChartDataPoint) :
    ((createCandlesticks (groupByKey (fun p => g p.timestamp) S)).map
      (fun c => g c.timestamp)).Nodup := by
  have hperm : ((createCandlesticks (groupByKey (fun p => g p.timestamp) S)).map
      (fun c => g c.timestamp)).Perm
      (((groupByKey (fun p => g p.timestamp) S).flatMap
        (fun kv => (makeCandle kv.2).toList)).map (fun c => g c.timestamp)) :=
    (List.mergeSort_perm _ _).map _
  rw [hperm.nodup_iff]
  refine (flat_candles_keys g _ (groupByKey_keys_nodup _ S) ?_).1
  intro kv hkv c hmc
  have hbucket := groupByKey_bucket _ S kv hkv
  obtain ⟨_, _, _, _, _, ⟨q, hq, _, hts⟩, _⟩ := makeCandle_char kv.2 c hmc
  rw [hbucket] at hq
  obtain ⟨_, hq2⟩ := List.mem_filter.mp hq
  simp only [decide_eq_true_eq] at hq2
  rw [hts]
  exact hq2

theorem filter_swap {α : Type} (p r : α → Bool) (S : List α) :
    (S.filter p).filter r = (S.filter r).filter p := by
  rw [List.filter_filter, List.filter_filter]
  exact List.filter_congr (fun x _ => Bool.and_comm _ _)

/-- Core of the aggregation associativity: for each week bucket `k`, building a
candle from the week's day candles gives the same high, low and volume as
building it from the week's raw points directly. -/
theorem makeCandle_week_of_days (S : List ChartDataPoint) (k : ℤ) :
    ((makeCandle ((groupByDays S).filter
        (fun c => decide (weekKey c.timestamp = k)))).map
      (fun c => (c.high, c.low, c.volume))) =
    ((makeCandle (S.filter (fun q => decide (weekKey q.timestamp = k)))).map
      (fun c => (c.high, c.low, c.volume))) := by
  have hDW : ∀ c ∈ (groupByDays S).filter (fun c => decide (weekKey c.timestamp = k)),
      isValidPoint c = true ∧ weekKey c.timestamp = k ∧
      makeCandle (S.filter (fun q => decide (dayKey q.timestamp = dayKey c.timestamp))) =
        some c := by
    intro c hc
    obtain ⟨hc1, hc2⟩ := List.mem_filter.mp hc
    simp only [decide_eq_true_eq] at hc2
    unfold groupByDays at hc1
    have hself := createCandlesticks_self_key dayKey S c hc1
    obtain ⟨_, _, _, _, _, _, hvalid⟩ := makeCandle_char _ c hself
    exact ⟨hvalid, hc2, hself⟩
  have hP2 : ∀ q ∈ S, isValidPoint q = true → weekKey q.timestamp = k →
      ∃ c ∈ (groupByDays S).filter (fun c => decide (weekKey c.timestamp = k)),
        dayKey c.timestamp = dayKey q.timestamp := by
    intro q hq hvq hwq
    have hkmem : dayKey q.timestamp ∈
        (groupByKey (fun p => dayKey p.timestamp) S).map Prod.fst :=
      (groupByKey_keys_iff _ S _).mpr ⟨q, hq, rfl⟩
    rcases List.mem_map.mp hkmem with ⟨kv, hkv, hkv1⟩
    have hbucket := groupByKey_bucket _ S kv hkv
    rcases hm : makeCandle kv.2 with _ | c
    · exfalso
      have hn := (makeCandle_eq_none_iff kv.2).mp hm
      have hq2 : q ∈ kv.2 := by
        rw [hbucket, List.mem_filter]
        exact ⟨hq, by simp [hkv1]⟩
      exact hn q hq2 hvq
    · have hcmem : c ∈ groupByDays S := by
        unfold groupByDays
        exact (mem_createCandlesticks _ c).mpr ⟨kv, hkv, hm⟩
      have hgc : dayKey c.timestamp = kv.1 := by
        obtain ⟨_, _, _, _, _, ⟨q2, hq2, _, hts⟩, _⟩ := makeCandle_char kv.2 c hm
        rw [hbucket] at hq2
        obtain ⟨_, hq22⟩ := List.mem_filter.mp hq2
        simp only [decide_eq_true_eq] at hq22
        rw [hts]
        exact hq22
      have hwc : weekKey c.timestamp = k := by
        unfold weekKey
        rw [hgc, hkv1]
        exact hwq
      refine ⟨c, List.mem_filter.mpr ⟨hcmem, by simp [hwc]⟩, ?_⟩
      rw [hgc, hkv1]
  have hnodDW : (((groupByDays S).filter (fun c => decide (weekKey c.timestamp = k))).map
      (fun c => dayKey c.timestamp)).Nodup := by
    refine ((List.filter_sublist _).map _).nodup ?_
    unfold groupByDays
    exact createCandlesticks_keys_nodup dayKey S
  have hDWvalid : ((groupByDays S).filter
        (fun c => decide (weekKey c.timestamp = k))).filter isValidPoint =
      (groupByDays S).filter (fun c => decide (weekKey c.timestamp = k)) :=
    List.filter_eq_self.mpr (fun c hc => (hDW c hc).1)
  rcases hA : makeCandle ((groupByDays S).filter
      (fun c => decide (weekKey c.timestamp = k))) with _ | cA <;>
    rcases hB : makeCandle (S.filter (fun q => decide (weekKey q.timestamp = k))) with _ | cB
  · rfl
  · exfalso
    have hn := (makeCandle_eq_none_iff _).mp hA
    obtain ⟨_, _, _, _, _, ⟨q, hq, hvq, _⟩, _⟩ := makeCandle_char _ cB hB
    obtain ⟨hq1, hq2⟩ := List.mem_filter.mp hq
    simp only [decide_eq_true_eq] at hq2
    obtain ⟨c, hcmem, _⟩ := hP2 q hq1 hvq hq2
    exact hn c hcmem (hDW c hcmem).1
  · exfalso
    have hn := (makeCandle_eq_none_iff _).mp hB
    obtain ⟨_, _, _, _, _, ⟨cs, hcs, _, _⟩, _⟩ := makeCandle_char _ cA hA
    obtain ⟨_, hcw, hmcs⟩ := hDW cs hcs
    obtain ⟨_, _, _, _, _, ⟨q, hq, hvq, _⟩, _⟩ := makeCandle_char _ cs hmcs
    obtain ⟨hq1, hq2⟩ := List.mem_filter.mp hq
    simp only [decide_eq_true_eq] at hq2
    have hwq : weekKey q.timestamp = k := by
      unfold weekKey
      rw [hq2]
      exact hcw
    refine hn q ?_ hvq
    rw [List.mem_filter]
    exact ⟨hq1, by simp [hwq]⟩
  · obtain ⟨hmaxA, hminA, hvolA, hhA, hlA, _, _⟩ := makeCandle_char _ cA hA
    obtain ⟨hmaxB, hminB, hvolB, hhB, hlB, _, _⟩ := makeCandle_char _ cB hB
    rw [hDWvalid] at hmaxA hminA hvolA
    have hVRW : (S.filter (fun q => decide (weekKey q.timestamp = k))).filter isValidPoint =
        (S.filter isValidPoint).filter (fun q => decide (weekKey q.timestamp = k)) :=
      filter_swap _ _ S
    have hmemtrans : ∀ c ∈ (groupByDays S).filter
        (fun c => decide (weekKey c.timestamp = k)),
        ∀ x ∈ ((S.filter (fun q => decide (dayKey q.timestamp = dayKey c.timestamp))).filter
          isValidPoint),
        x ∈ (S.filter (fun q => decide (weekKey q.timestamp = k))).filter isValidPoint := by
      intro c hc x hx
      obtain ⟨hx1, hx2⟩ := List.mem_filter.mp hx
      obtain ⟨hx3, hx4⟩ := List.mem_filter.mp hx1
      simp only [decide_eq_true_eq] at hx4
      have hwx : weekKey x.timestamp = k := by
        unfold weekKey
        rw [hx4]
        exact (hDW c hc).2.1
      rw [List.mem_filter]
      exact ⟨List.mem_filter.mpr ⟨hx3, by simp [hwx]⟩, hx2⟩
  
    have hubtrans : ∀ x ∈ (S.filter (fun q => decide (weekKey q.timestamp = k))).filter
        isValidPoint,
        ∃ c ∈ (groupByDays S).filter (fun c => decide (weekKey c.timestamp = k)),
          x ∈ (S.filter (fun q => decide (dayKey q.timestamp = dayKey c.timestamp))).filter
            isValidPoint := by
      intro x hx
      obtain ⟨hx1, hx2⟩ := List.mem_filter.mp hx
      obtain ⟨hx3, hx4⟩ := List.mem_filter.mp hx1
      simp only [decide_eq_true_eq] at hx4
      obtain ⟨c, hcmem, hcday⟩ := hP2 x hx3 hx2 hx4
      refine ⟨c, hcmem, ?_⟩
      rw [List.mem_filter]
      refine ⟨List.mem_filter.mpr ⟨hx3, by simp [hcday]⟩, hx2⟩
    have hhigh : cA.high = cB.high := by
      have hAmax2 : IsMaxOf (cA.high.getD 0)
          (((S.filter (fun q => decide (weekKey q.timestamp = k))).filter
            isValidPoint).map (fun p => p.high.getD 0)) := by
        constructor
        · rcases List.mem_map.mp hmaxA.1 with ⟨cs, hcs, hcsh⟩
          obtain ⟨_, _, hmcs⟩ := hDW cs hcs
          obtain ⟨hmaxS, _, _, hhS, _, _, _⟩ := makeCandle_char _ cs hmcs
          rcases List.mem_map.mp hmaxS.1 with ⟨q, hq, hqh⟩
          rw [← hcsh, ← hqh]
          exact List.mem_map_of_mem _ (hmemtrans cs hcs q hq)
        · intro y hy
          rcases List.mem_map.mp hy with ⟨q, hq, hqh⟩
          obtain ⟨c, hcmem, hqin⟩ := hubtrans q hq
          obtain ⟨_, _, hmc⟩ := hDW c hcmem
          obtain ⟨hmaxS, _, _, _, _, _, _⟩ := makeCandle_char _ c hmc
          have h1 : y ≤ c.high.getD 0 := by
            rw [← hqh]
            exact hmaxS.2 _ (List.mem_map_of_mem _ hqin)
          have h2 : c.high.getD 0 ≤ cA.high.getD 0 :=
            hmaxA.2 _ (List.mem_map_of_mem _ hcmem)
          exact le_trans h1 h2
      rw [hhA, hhB, isMaxOf_unique hAmax2 hmaxB]
    have hlow : cA.low = cB.low := by
      have hAmin2 : IsMinOf (cA.low.getD 0)
          (((S.filter (fun q => decide (weekKey q.timestamp = k))).filter
            isValidPoint).map (fun p => p.low.getD 0)) := by
        constructor
        · rcases List.mem_map.mp hminA.1 with ⟨cs, hcs, hcsh⟩
          obtain ⟨_, _, hmcs⟩ := hDW cs hcs
          obtain ⟨_, hminS, _, _, hlS, _, _⟩ := makeCandle_char _ cs hmcs
          rcases List.mem_map.mp hminS.1 with ⟨q, hq, hqh⟩
          rw [← hcsh, ← hqh]
          exact List.mem_map_of_mem _ (hmemtrans cs hcs q hq)
        · intro y hy
          rcases List.mem_map.mp hy with ⟨q, hq, hqh⟩
          obtain ⟨c, hcmem, hqin⟩ := hubtrans q hq
          obtain ⟨_, _, hmc⟩ := hDW c hcmem
          obtain ⟨_, hminS, _, _, _, _, _⟩ := makeCandle_char _ c hmc
          have h1 : c.low.getD 0 ≤ y := by
            rw [← hqh]
            exact hminS.2 _ (List.mem_map_of_mem _ hqin)
          have h2 : cA.low.getD 0 ≤ c.low.getD 0 :=
            hminA.2 _ (List.mem_map_of_mem _ hcmem)
          exact le_trans h2 h1
      rw [hlA, hlB, isMinOf_unique hAmin2 hminB]
    have hvol : cA.volume = cB.volume := by
      rw [hvolA, hvolB]
      congr 1
      have hstep1 : ((groupByDays S).filter
          (fun c => decide (weekKey c.timestamp = k))).map (fun c => c.volume.getD 0) =
          ((groupByDays S).filter (fun c => decide (weekKey c.timestamp = k))).map
            (fun c => (((S.filter isValidPoint).filter
              (fun q => decide (dayKey q.timestamp = dayKey c.timestamp))).map
              (fun p => p.volume.getD 0)).sum) := by
        apply List.map_congr_left
        intro c hc
        obtain ⟨_, _, hmc⟩ := hDW c hc
        obtain ⟨_, _, hvolc, _, _, _, _⟩ := makeCandle_char _ c hmc
        rw [hvolc]
        simp only [Option.getD_some]
        rw [filter_swap]
      rw [hstep1]
      have hstep2 : ((groupByDays S).filter
          (fun c => decide (weekKey c.timestamp = k))).map
            (fun c => (((S.filter isValidPoint).filter
              (fun q => decide (dayKey q.timestamp = dayKey c.timestamp))).map
              (fun p => p.volume.getD 0)).sum) =
          (((groupByDays S).filter (fun c => decide (weekKey c.timestamp = k))).map
            (fun c => dayKey c.timestamp)).map
            (fun d => (((S.filter isValidPoint).filter
              (fun q => decide (dayKey q.timestamp = d))).map
              (fun p => p.volume.getD 0)).sum) := by
        rw [List.map_map]
        rfl
      rw [hstep2, sum_filter_partition (fun p => p.volume.getD 0)
        (fun q => dayKey q.timestamp) (S.filter isValidPoint) _ hnodDW]
      rw [hVRW]
      apply congrArg
      apply congrArg
      apply List.filter_congr
      intro q hq
      have hq1 : q ∈ S := List.mem_of_mem_filter hq
      have hqv : isValidPoint q = true := (List.mem_filter.mp hq).2
      rw [decide_eq_decide]
      constructor
      · intro hmem
        rcases List.mem_map.mp hmem with ⟨c, hc, hcd⟩
        have : weekKey q.timestamp = weekKey c.timestamp := by
          unfold weekKey
          rw [hcd]
        rw [this]
        exact (hDW c hc).2.1
      · intro hwq
        obtain ⟨c, hcmem, hcday⟩ := hP2 q hq1 hqv hwq
        exact List.mem_map.mpr ⟨c, hcmem, hcday⟩
    simp only [Option.map_some']
    rw [hhigh, hlow, hvol]

theorem groupByDays_ne_nil_of_valid (S : List ChartDataPoint) (q : ChartDataPoint)
    (hq : q ∈ S) (hvq : isValidPoint q = true) : groupByDays S ≠ [] := by
  intro hnil
  have hkmem : dayKey q.timestamp ∈
      (groupByKey (fun p => dayKey p.timestamp) S).map Prod.fst :=
    (groupByKey_keys_iff _ S _).mpr ⟨q, hq, rfl⟩
  rcases List.mem_map.mp hkmem with ⟨kv, hkv, hkv1⟩
  have hbucket := groupByKey_bucket _ S kv hkv
  rcases hm : makeCandle kv.2 with _ | c
  · have hn := (makeCandle_eq_none_iff kv.2).mp hm
    refine hn q ?_ hvq
    rw [hbucket, List.mem_filter]
    exact ⟨hq, by simp [hkv1]⟩
  · have hc : c ∈ groupByDays S := by
      unfold groupByDays
      exact (mem_createCandlesticks _ c).mpr ⟨kv, hkv, hm⟩
    rw [hnil] at hc
    simp at hc

/-- C7: aggregating raw points into day candles and re-aggregating those day
candles into week buckets yields, for every week bucket, a candle with the
same high, low and volume as aggregating the raw points directly into week
buckets (and a candle exists for a bucket on one side exactly when it does on
the other). -/
theorem day_week_aggregation_assoc (data : List ChartDataPoint) (k : ℤ) :
    ((groupDataByTimeframe (groupDataByTimeframe data Timeframe.d1) Timeframe.w1).find?
      (fun c => decide (weekKey c.timestamp = k))).map
      (fun c => (c.high, c.low, c.volume)) =
    ((groupDataByTimeframe data Timeframe.w1).find?
      (fun c => decide (weekKey c.timestamp = k))).map
      (fun c => (c.high, c.low, c.volume)) := by
  by_cases hd : data.isEmpty
  · have hd2 : data = [] := List.isEmpty_iff.mp hd
    subst hd2
    simp [groupDataByTimeframe]
  · have hrhs : groupDataByTimeframe data Timeframe.w1 =
        groupByWeeks (sortByTimestamp data) := by
      unfold groupDataByTimeframe
      rw [if_neg hd]
    have hinner : groupDataByTimeframe data Timeframe.d1 =
        groupByDays (sortByTimestamp data) := by
      unfold groupDataByTimeframe
      rw [if_neg hd]
    rw [hrhs, hinner]
    have hBside : (groupByWeeks (sortByTimestamp data)).find?
        (fun c => decide (weekKey c.timestamp = k)) =
        makeCandle ((sortByTimestamp data).filter
          (fun q => decide (weekKey q.timestamp = k))) := by
      unfold groupByWeeks
      exact find_candle weekKey (sortByTimestamp data) k
    by_cases hdc : (groupByDays (sortByTimestamp data)).isEmpty
    · have hdc2 : groupByDays (sortByTimestamp data) = [] := List.isEmpty_iff.mp hdc
      have hlhs : groupDataByTimeframe (groupByDays (sortByTimestamp data))
          Timeframe.w1 = [] := by
        unfold groupDataByTimeframe
        rw [if_pos hdc]
      have hnone : makeCandle ((sortByTimestamp data).filter
          (fun q => decide (weekKey q.timestamp = k))) = none := by
        rw [makeCandle_eq_none_iff]
        intro q hq hvq
        exact groupByDays_ne_nil_of_valid (sortByTimestamp data) q
          (List.mem_of_mem_filter hq) hvq hdc2
      rw [hlhs, hBside, hnone]
      simp
    · have hlhs : groupDataByTimeframe (groupByDays (sortByTimestamp data)) Timeframe.w1 =
          groupByWeeks (sortByTimestamp (groupByDays (sortByTimestamp data))) := by
        unfold groupDataByTimeframe
        rw [if_neg hdc]
      rw [hlhs]
      have hAside : (groupByWeeks (sortByTimestamp (groupByDays
          (sortByTimestamp data)))).find? (fun c => decide (weekKey c.timestamp = k)) =
          makeCandle ((sortByTimestamp (groupByDays (sortByTimestamp data))).filter
            (fun c => decide (weekKey c.timestamp = k))) := by
        unfold groupByWeeks
        exact find_candle weekKey (sortByTimestamp (groupByDays (sortByTimestamp data))) k
      rw [hAside, hBside]
      have hperm : ((sortByTimestamp (groupByDays (sortByTimestamp data))).filter
          (fun c => decide (weekKey c.timestamp = k))).Perm
          ((groupByDays (sortByTimestamp data)).filter
            (fun c => decide (weekKey c.timestamp = k))) :=
        (List.mergeSort_perm _ _).filter _
      rw [makeCandle_hlv_perm _ _ hperm]
      exact makeCandle_week_of_days (sortByTimestamp data) k

/-! ## Injectivity of the hashed OHLC serialization -/

theorem natStrAux_eq (b : Nat) (hb : 2 ≤ b) :
    ∀ fuel n, n < fuel →
      natStrAux b fuel n =
        if n = 0 then ['0'] else (Nat.digits b n).reverse.map Nat.digitChar := by
  intro fuel
  induction fuel with
  | zero => intro n h; omega
  | succ f ih =>
    intro n hn
    rw [natStrAux]
    by_cases hnb : n < b
    · rw [if_pos hnb]
      by_cases hn0 : n = 0
      · subst hn0
        rfl
      · rw [if_neg hn0]
        have hd : Nat.digits b n = [n] := by
          rw [Nat.digits_def' (by omega : 1 < b) (Nat.pos_of_ne_zero hn0),
            Nat.mod_eq_of_lt hnb, Nat.div_eq_of_lt hnb]
          simp
        rw [hd]
        simp
    · rw [if_neg hnb]
      have hn0 : n ≠ 0 := by omega
      have hdiv_lt : n / b < f := by
        have h1 : n / b < n := Nat.div_lt_self (by omega) (by omega)
        omega
      have hdivne : n / b ≠ 0 := by
        have := Nat.div_pos (by omega : b ≤ n) (by omega : 0 < b)
        omega
      rw [ih (n / b) hdiv_lt, if_neg hdivne, if_neg hn0,
        Nat.digits_def' (by omega : 1 < b) (Nat.pos_of_ne_zero hn0)]
      simp

theorem natStr_eq (b n : Nat) (hb : 2 ≤ b) :
    natStr b n = if n = 0 then ['0'] else (Nat.digits b n).reverse.map Nat.digitChar :=
  natStrAux_eq b hb (n + 1) n (Nat.lt_succ_self n)

theorem digitChar_inj : ∀ d1 < 16, ∀ d2 < 16, Nat.digitChar d1 = Nat.digitChar d2 → d1 = d2 := by
  decide

theorem digitChar_not_sep : ∀ d < 16, Nat.digitChar d ≠ '-' ∧ Nat.digitChar d ≠ '/' ∧
    Nat.digitChar d ≠ '|' ∧ Nat.digitChar d ≠ ';' := by
  decide

theorem natStr_chars (b n : Nat) (hb : 2 ≤ b) (hb16 : b ≤ 16) :
    ∀ c ∈ natStr b n, ∃ d, d < 16 ∧ c = Nat.digitChar d := by
  rw [natStr_eq b n hb]
  split_ifs with h0
  · intro c hc
    simp only [List.mem_singleton] at hc
    exact ⟨0, by omega, by rw [hc]; rfl⟩
  · intro c hc
    rcases List.mem_map.mp hc with ⟨d, hd, rfl⟩
    rw [List.mem_reverse] at hd
    exact ⟨d, by have := Nat.digits_lt_base (by omega : 1 < b) hd; omega, rfl⟩

theorem natStr_ne_nil (b n : Nat) (hb : 2 ≤ b) : natStr b n ≠ [] := by
  rw [natStr_eq b n hb]
  split_ifs with h0
  · simp
  · simp only [ne_eq, List.map_eq_nil_iff, List.reverse_eq_nil_iff]
    exact Nat.digits_ne_nil_iff_ne_zero.mpr h0

theorem map_digitChar_inj :
    ∀ l1 l2 : List Nat, (∀ d ∈ l1, d < 16) → (∀ d ∈ l2, d < 16) →
      l1.map Nat.digitChar = l2.map Nat.digitChar → l1 = l2 := by
  intro l1
  induction l1 with
  | nil =>
    intro l2 _ _ h
    cases l2 with
    | nil => rfl
    | cons x t => simp at h
  | cons a t ih =>
    intro l2 h1 h2 h
    cases l2 with
    | nil => simp at h
    | cons x t2 =>
      simp only [List.map_cons, List.cons.injEq] at h
      have ha : a = x := digitChar_inj a (h1 a (List.mem_cons_self _ _)) x
        (h2 x (List.mem_cons_self _ _)) h.1
      rw [ha, ih t2 (fun d hd => h1 d (List.mem_cons_of_mem _ hd))
        (fun d hd => h2 d (List.mem_cons_of_mem _ hd)) h.2]

theorem natStr_inj (b : Nat) (hb : 2 ≤ b) (hb16 : b ≤ 16) :
    ∀ m n : Nat, natStr b m = natStr b n → m = n := by
  have hsingle : ∀ n : Nat, n ≠ 0 →
      (Nat.digits b n).reverse.map Nat.digitChar = ['0'] → False := by
    intro n hn0 h
    have hlen : ((Nat.digits b n).reverse.map Nat.digitChar).length = 1 := by rw [h]; rfl
    simp only [List.length_map, List.length_reverse] at hlen
    rcases List.length_eq_one.mp hlen with ⟨d, hd⟩
    rw [hd] at h
    simp only [List.reverse_cons] at h
    have hd16 : d < 16 := by
      have := Nat.digits_lt_base (by omega : 1 < b) (by rw [hd]; exact List.mem_singleton.mpr rfl)
      omega
    have hd0 : d = 0 := digitChar_inj d hd16 0 (by omega)
      (by simpa using congrArg (fun l => l.headD ' ') h)
    have := Nat.ofDigits_digits b n
    rw [hd, hd0] at this
    simp [Nat.ofDigits] at this
    omega
  intro m n h
  rw [natStr_eq b m hb, natStr_eq b n hb] at h
  by_cases hm : m = 0 <;> by_cases hn : n = 0
  · omega
  · rw [if_pos hm, if_neg hn] at h
    exact absurd h.symm (fun h2 => hsingle n hn h2)
  · rw [if_neg hm, if_pos hn] at h
    exact absurd h (fun h2 => hsingle m hm h2)
  · rw [if_neg hm, if_neg hn] at h
    have hd : (Nat.digits b m).reverse = (Nat.digits b n).reverse :=
      map_digitChar_inj _ _
        (fun d hd => by
          have := Nat.digits_lt_base (by omega : 1 < b) (List.mem_reverse.mp hd); omega)
        (fun d hd => by
          have := Nat.digits_lt_base (by omega : 1 < b) (List.mem_reverse.mp hd); omega) h
    have hd2 : Nat.digits b m = Nat.digits b n := List.reverse_inj.mp hd
    calc m = Nat.ofDigits b (Nat.digits b m) := (Nat.ofDigits_digits b m).symm
      _ = Nat.ofDigits b (Nat.digits b n) := by rw [hd2]
      _ = n := Nat.ofDigits_digits b n

theorem not_mem_natStr (b n : Nat) (hb : 2 ≤ b) (hb16 : b ≤ 16) (c : Char)
    (hc : c = '-' ∨ c = '/' ∨ c = '|' ∨ c = ';') : c ∉ natStr b n := by
  intro hmem
  obtain ⟨d, hd16, rfl⟩ := natStr_chars b n hb hb16 c hmem
  obtain ⟨h1, h2, h3, h4⟩ := digitChar_not_sep d hd16
  rcases hc with h | h | h | h <;> [exact h1 h; exact h2 h; exact h3 h; exact h4 h]

theorem not_mem_intStr (n : ℤ) (c : Char) (hc : c = '/' ∨ c = '|' ∨ c = ';') :
    c ∉ intStr n := by
  unfold intStr
  split_ifs with hneg
  · intro hmem
    rcases List.mem_cons.mp hmem with rfl | hmem
    · rcases hc with h | h | h <;> cases h
    · exact not_mem_natStr 10 n.natAbs (by omega) (by omega) c (Or.inr hc) hmem
  · exact not_mem_natStr 10 n.natAbs (by omega) (by omega) c (Or.inr hc)

theorem intStr_ne_nil (n : ℤ) : intStr n ≠ [] := by
  unfold intStr
  split_ifs with hneg
  · simp
  · exact natStr_ne_nil 10 n.natAbs (by omega)

theorem intStr_inj : ∀ m n : ℤ, intStr m = intStr n → m = n := by
  have hdash : ∀ k : ℤ, '-' ∉ natStr 10 k.natAbs := fun k =>
    not_mem_natStr 10 k.natAbs (by omega) (by omega) '-' (Or.inl rfl)
  intro m n h
  unfold intStr at h
  split_ifs at h with h1 h2 h2
  · simp only [List.cons.injEq, true_and] at h
    have := natStr_inj 10 (by omega) (by omega) m.natAbs n.natAbs h
    omega
  · exfalso
    apply hdash n
    rw [← h]
    exact List.mem_cons_self _ _
  · exfalso
    apply hdash m
    rw [h]
    exact List.mem_cons_self _ _
  · have := natStr_inj 10 (by omega) (by omega) m.natAbs n.natAbs h
    omega

theorem not_mem_ratStr (q : ℚ) (c : Char) (hc : c = '|' ∨ c = ';') : c ∉ ratStr q := by
  unfold ratStr
  split_ifs with h1
  · exact not_mem_intStr q.num c (Or.inr hc)
  · intro hmem
    rcases List.mem_append.mp hmem with hmem | hmem
    · exact not_mem_intStr q.num c (Or.inr hc) hmem
    · rcases List.mem_cons.mp hmem with rfl | hmem
      · rcases hc with h | h <;> cases h
      · exact not_mem_natStr 10 q.den (by omega) (by omega) c (Or.inr (Or.inr hc)) hmem

theorem append_cons_inj {α : Type} (c : α) :
    ∀ (a1 a2 b1 b2 : List α), c ∉ a1 → c ∉ a2 →
      a1 ++ c :: b1 = a2 ++ c :: b2 → a1 = a2 ∧ b1 = b2 := by
  intro a1
  induction a1 with
  | nil =>
    intro a2 b1 b2 _ hc2 h
    cases a2 with
    | nil =>
      simp only [List.nil_append, List.cons.injEq] at h
      exact ⟨rfl, h.2⟩
    | cons x a2t =>
      simp only [List.nil_append, List.cons_append, List.cons.injEq] at h
      exact absurd (h.1 ▸ List.mem_cons_self x a2t) hc2
  | cons a a1t ih =>
    intro a2 b1 b2 hc1 hc2 h
    cases a2 with
    | nil =>
      simp only [List.cons_append, List.nil_append, List.cons.injEq] at h
      exact absurd (h.1.symm ▸ List.mem_cons_self a a1t) hc1
    | cons x a2t =>
      simp only [List.cons_append, List.cons.injEq] at h
      obtain ⟨h1, h2⟩ := ih a2t b1 b2 (fun hm => hc1 (List.mem_cons_of_mem _ hm))
        (fun hm => hc2 (List.mem_cons_of_mem _ hm)) h.2
      exact ⟨by rw [h.1, h1], h2⟩

theorem ratStr_inj : ∀ q1 q2 : ℚ, ratStr q1 = ratStr q2 → q1 = q2 := by
  have hslash : ∀ n : ℤ, '/' ∉ intStr n := fun n =>
    not_mem_intStr n '/' (Or.inl rfl)
  intro q1 q2 h
  unfold ratStr at h
  split_ifs at h with h1 h2 h2
  · have hnum := intStr_inj q1.num q2.num h
    exact Rat.ext hnum (h1.trans h2.symm)
  · exfalso
    apply hslash q1.num
    rw [h]
    exact List.mem_append_right _ (List.mem_cons_self _ _)
  · exfalso
    apply hslash q2.num
    rw [← h]
    exact List.mem_append_right _ (List.mem_cons_self _ _)
  · obtain ⟨hn, hd⟩ := append_cons_inj '/' _ _ _ _ (hslash q1.num) (hslash q2.num) h
    exact Rat.ext (intStr_inj _ _ hn) (natStr_inj 10 (by omega) (by omega) _ _ hd)

theorem pointStr_inj (p p2 : OHLCPoint) (h : pointStr p = pointStr p2) :
    p.timestamp = p2.timestamp ∧ p.open_ = p2.open_ ∧ p.high = p2.high ∧
    p.low = p2.low ∧ p.close = p2.close := by
  have hts_notmem : ∀ o : Option ℤ,
      '|' ∉ (match o with | some t => intStr t | none => ([] : List Char)) := by
    intro o
    cases o with
    | none => simp
    | some t => exact not_mem_intStr t '|' (Or.inr (Or.inl rfl))
  unfold pointStr at h
  obtain ⟨h1, hrest1⟩ := append_cons_inj '|' _ _ _ _ (hts_notmem p.timestamp)
    (hts_notmem p2.timestamp) h
  obtain ⟨h2, hrest2⟩ := append_cons_inj '|' _ _ _ _
    (not_mem_ratStr p.open_ '|' (Or.inl rfl))
    (not_mem_ratStr p2.open_ '|' (Or.inl rfl)) hrest1
  obtain ⟨h3, hrest3⟩ := append_cons_inj '|' _ _ _ _
    (not_mem_ratStr p.high '|' (Or.inl rfl))
    (not_mem_ratStr p2.high '|' (Or.inl rfl)) hrest2
  obtain ⟨h4, hrest4⟩ := append_cons_inj '|' _ _ _ _
    (not_mem_ratStr p.low '|' (Or.inl rfl))
    (not_mem_ratStr p2.low '|' (Or.inl rfl)) hrest3
  obtain ⟨h5, _⟩ := append_cons_inj ';' _ _ _ _
    (not_mem_ratStr p.close ';' (Or.inr rfl))
    (not_mem_ratStr p2.close ';' (Or.inr rfl)) hrest4
  have hts : p.timestamp = p2.timestamp := by
    rcases hp : p.timestamp with _ | t
    · rcases hp2 : p2.timestamp with _ | t2
      · rfl
      · rw [hp, hp2] at h1
        exact absurd h1.symm (intStr_ne_nil t2)
    · rcases hp2 : p2.timestamp with _ | t2
      · rw [hp, hp2] at h1
        exact absurd h1 (intStr_ne_nil t)
      · rw [hp, hp2] at h1
        rw [intStr_inj t t2 h1]
  exact ⟨hts, ratStr_inj _ _ h2, ratStr_inj _ _ h3, ratStr_inj _ _ h4, ratStr_inj _ _ h5⟩

theorem ohlcString_append (l1 l2 : List OHLCPoint) :
    ohlcString (l1 ++ l2) = ohlcString l1 ++ ohlcString l2 := by
  unfold ohlcString
  rw [List.map_append, List.flatten_append]

theorem ohlcString_cons (p : OHLCPoint) (l : List OHLCPoint) :
    ohlcString (p :: l) = pointStr p ++ ohlcString l := by
  unfold ohlcString
  rw [List.map_cons, List.flatten_cons]

/-- C8 (amended): the Indicator Cache key is computed over exactly the fields
timestamp/open/high/low/close — changing only volumes yields the identical key
(cache hit preserved); changing any of the five hashed fields of any point
changes the serialized OHLC content string, but the derived key truncates that
content through a 32-bit hash and may therefore still collide (see the
counterexample). -/
theorem getOrComputeRSIKey_spec :
    (∀ (symbol : String) (tf : Timeframe) (paramsHash : String)
      (l l2 : List OHLCPoint),
      List.Forall₂ (fun p p2 => p.timestamp = p2.timestamp ∧ p.open_ = p2.open_ ∧
        p.high = p2.high ∧ p.low = p2.low ∧ p.close = p2.close) l l2 →
      getOrComputeRSIKey symbol tf paramsHash l = getOrComputeRSIKey symbol tf paramsHash l2)
    ∧ (∀ (l1 l2 : List OHLCPoint) (p p2 : OHLCPoint),
      (p.timestamp ≠ p2.timestamp ∨ p.open_ ≠ p2.open_ ∨ p.high ≠ p2.high ∨
        p.low ≠ p2.low ∨ p.close ≠ p2.close) →
      ohlcString (l1 ++ p :: l2) ≠ ohlcString (l1 ++ p2 :: l2)) := by
  constructor
  · intro symbol tf paramsHash l l2 hf
    have hstr : ohlcString l = ohlcString l2 := by
      induction hf with
      | nil => rfl
      | cons hpair _ ih =>
        rw [ohlcString_cons, ohlcString_cons, ih]
        obtain ⟨h1, h2, h3, h4, h5⟩ := hpair
        unfold pointStr
        rw [h1, h2, h3, h4, h5]
    unfold getOrComputeRSIKey makeKey hashOHLC
    rw [hstr]
  · intro l1 l2 p p2 hne h
    rw [ohlcString_append, ohlcString_append, ohlcString_cons, ohlcString_cons] at h
    rw [← List.append_assoc, ← List.append_assoc] at h
    have h2 := List.append_cancel_right h
    have h3 := List.append_cancel_left h2
    obtain ⟨hts, ho, hh, hl, hc⟩ := pointStr_inj p p2 h3
    rcases hne with hx | hx | hx | hx | hx
    · exact hx hts
    · exact hx ho
    · exact hx hh
    · exact hx hl
    · exact hx hc

/-- Counterexample to C8 as stated: two one-bar inputs that agree on timestamp,
open, high, low and volume but differ in close, yet derive the identical cache
key — the 32-bit content hash collides, so a close change does not guarantee a
cache miss. -/
theorem getOrComputeRSIKey_collision_cex :
    hashCexPoint1.close ≠ hashCexPoint2.close ∧
    hashCexPoint1.timestamp = hashCexPoint2.timestamp ∧
    hashCexPoint1.open_ = hashCexPoint2.open_ ∧
    hashCexPoint1.high = hashCexPoint2.high ∧
    hashCexPoint1.low = hashCexPoint2.low ∧
    hashCexPoint1.volume = hashCexPoint2.volume ∧
    getOrComputeRSIKey "AAPL" Timeframe.d1 "params" [hashCexPoint1] =
      getOrComputeRSIKey "AAPL" Timeframe.d1 "params" [hashCexPoint2] := by
  refine ⟨by decide, rfl, rfl, rfl, rfl, rfl, ?_⟩
  have h : hashOHLC [hashCexPoint1] = hashOHLC [hashCexPoint2] := by decide
  unfold getOrComputeRSIKey makeKey
  rw [h]
